import Mathlib

/-!
Verification of the happiness-dashboard data pipeline.

This file gives a shallow embedding of the data-loading and merging logic of
the repository (src/app.py and src/Fa1z_dashboard/app.py) as executable Lean
definitions, and proves or refutes the frozen specification claims about it.

Modelling conventions:
- pandas DataFrames are modelled column-wise (a list of named columns whose
  cells are raw strings) or row-wise (lists of records), depending on which
  operations the embedded code performs;
- machine floats produced by pd.to_numeric are modelled as exact decimals
  (an integer mantissa with a power-of-ten denominator), since no claim
  depends on float rounding, only on parse success and on which value is
  carried;
- string operations (lower-casing, trimming, comparison) are implemented on
  the character list of the string, mirroring what Python does on code
  points, because the Lean core versions do not reduce in the kernel.
-/

namespace HappyDash

/-! ### Character and string utilities (code-point based, as in Python) -/

/-- Whitespace test used by trimming (space, tab, newline, carriage return). -/
def isWS (c : Char) : Bool := c = ' ' || c = '\t' || c = '\n' || c = '\r'

/-- Trim leading and trailing whitespace, as Python str.strip / pandas do. -/
def trimStr (s : String) : String :=
  ⟨((s.data.dropWhile isWS).reverse.dropWhile isWS).reverse⟩

/-- ASCII lower-casing of one character (Python str.lower on ASCII headers). -/
def lowerChar (c : Char) : Char :=
  if 65 ≤ c.toNat ∧ c.toNat ≤ 90 then Char.ofNat (c.toNat + 32) else c

/-- ASCII lower-casing of a string. -/
def lowerStr (s : String) : String := ⟨s.data.map lowerChar⟩

/-- Code-point lexicographic comparison of character lists (Python string <). -/
def charListLtB : List Char → List Char → Bool
  | [], [] => false
  | [], _ :: _ => true
  | _ :: _, [] => false
  | a :: as, b :: bs =>
    if a.toNat < b.toNat then true
    else if a.toNat = b.toNat then charListLtB as bs
    else false

/-- Code-point lexicographic comparison of strings. -/
def strLtB (a b : String) : Bool := charListLtB a.data b.data

/-! ### Numeric coercion (pd.to_numeric with errors="coerce")

The embedded numeric values are exact decimals: `mantissa / 10 ^ exp`.
The parser accepts an optional sign, an integer part and an optional
fractional part, with at least one digit; anything else fails to `none`,
exactly as `errors="coerce"` maps unparseable cells to NaN. -/

/-- An exact decimal number: the value `mantissa / 10 ^ exp`. -/
structure Num where
  mantissa : Int
  exp : Nat
deriving DecidableEq, Repr

def isDigitCh (c : Char) : Bool := 48 ≤ c.toNat && c.toNat ≤ 57

/-- Value of a digit list read left to right. -/
def digitsVal (cs : List Char) : Nat := cs.foldl (fun n c => 10 * n + (c.toNat - 48)) 0

/-- Parse an unsigned decimal literal: digits with at most one point. -/
def parseUnsigned (cs : List Char) : Option Num :=
  match cs.splitOn '.' with
  | [w] =>
    if !w.isEmpty && w.all isDigitCh then some ⟨digitsVal w, 0⟩ else none
  | [w, f] =>
    if !(w ++ f).isEmpty && (w ++ f).all isDigitCh then
      some ⟨digitsVal (w ++ f), f.length⟩
    else none
  | _ => none

/-- Numeric coercion of one raw cell, as pd.to_numeric(errors="coerce"):
trim whitespace, optional sign, decimal literal; failure yields none. -/
def parseNum (s : String) : Option Num :=
  match (trimStr s).data with
  | '-' :: rest => (parseUnsigned rest).map (fun n => ⟨-n.mantissa, n.exp⟩)
  | '+' :: rest => parseUnsigned rest
  | cs => parseUnsigned cs

/-! ### Comma-decimal handling (load_peace)

The source runs `.str.replace(",", ".")` on every candidate cell before
`pd.to_numeric`.  pandas `Series.str.replace` with default `n=-1` replaces
every occurrence of the pattern, so the embedding maps every comma of the
cell to a period. -/

/-- The cell transformation of load_peace: every comma becomes a period. -/
def fixCommas (s : String) : String :=
  ⟨s.data.map (fun c => if c = ',' then '.' else c)⟩

/-- Coercion used on peace-index cells: comma fix, then numeric parse. -/
def coerceCell (s : String) : Option Num := parseNum (fixCommas s)

/-- What the specification describes instead: replace only the first comma. -/
def replaceFirstComma : List Char → List Char
  | [] => []
  | c :: cs => if c = ',' then '.' :: cs else c :: replaceFirstComma cs

/-- Number of commas in a string. -/
def commaCount (s : String) : Nat := s.data.count ','

lemma count_comma_map_fix (cs : List Char) :
    (cs.map (fun c => if c = ',' then '.' else c)).count ',' = 0 := by
  induction cs with
  | nil => simp
  | cons c cs ih =>
    by_cases h : c = ','
    · simp [h, List.count_cons, ih]
    · simp [h, List.count_cons, ih]

lemma count_other_map_fix (cs : List Char) (d : Char) (hd : d ≠ ',') (hp : d ≠ '.') :
    (cs.map (fun c => if c = ',' then '.' else c)).count d = cs.count d := by
  induction cs with
  | nil => simp
  | cons c cs ih =>
    by_cases h : c = ','
    · subst h
      simp only [List.map_cons, if_pos rfl, List.count_cons, ih]
      simp [Ne.symm hp, Ne.symm hd]
    · simp only [List.map_cons, if_neg h, List.count_cons, ih]

lemma count_period_map_fix (cs : List Char) :
    (cs.map (fun c => if c = ',' then '.' else c)).count '.' =
      cs.count '.' + cs.count ',' := by
  induction cs with
  | nil => simp
  | cons c cs ih =>
    by_cases h : c = ','
    all_goals by_cases h2 : c = '.'
    all_goals simp [h, h2, List.count_cons, ih]
    all_goals omega

/-- C5 counterexample: on the raw value "1,2,3" the code replaces both
commas (the result has zero commas left), not exactly one as claimed;
the code transform also differs from a first-comma-only replacement. -/
theorem C5_counterexample :
    fixCommas "1,2,3" = "1.2.3" ∧
    commaCount "1,2,3" = 2 ∧
    commaCount (fixCommas "1,2,3") = 0 ∧
    commaCount "1,2,3" - commaCount (fixCommas "1,2,3") ≠ 1 ∧
    (fixCommas "1,2,3").data ≠ replaceFirstComma ("1,2,3").data := by
  refine ⟨by decide, by decide, by decide, by decide, by decide⟩

/-- C5 amended: the load_peace cell transform replaces every comma (not only
the first) with a period: no comma remains, every comma became a period,
every other character is untouched, and the length is preserved. -/
theorem C5_fixCommas_replaces_all (s : String) :
    commaCount (fixCommas s) = 0 ∧
    (fixCommas s).data.count '.' = s.data.count '.' + commaCount s ∧
    (∀ d : Char, d ≠ ',' → d ≠ '.' → (fixCommas s).data.count d = s.data.count d) ∧
    (fixCommas s).data.length = s.data.length := by
  refine ⟨count_comma_map_fix s.data, count_period_map_fix s.data,
    fun d hd hp => count_other_map_fix s.data d hd hp, by simp [fixCommas]⟩

/-- C5 witness: the amended theorem evaluated on the value "7,5,0". -/
theorem C5_witness :
    commaCount (fixCommas "7,5,0") = 0 ∧
    (fixCommas "7,5,0").data.count '5' = ("7,5,0" : String).data.count '5' := by
  exact ⟨(C5_fixCommas_replaces_all "7,5,0").1,
    (C5_fixCommas_replaces_all "7,5,0").2.2.1 '5' (by decide) (by decide)⟩

/-! ### The peace-index table model (load_peace, src/app.py lines 93-132)

A table is a list of named columns.  Cells are raw strings as read from the
semicolon CSV; the Peace_Score column written by the loader holds coerced
numerics (or nulls), so a cell is one of raw / numeric / null. -/

/-- One cell of a table: a raw string, a coerced numeric, or null (NaN). -/
inductive CellV where
  | raw (s : String)
  | num (n : Num)
  | null
deriving DecidableEq, Repr

/-- One named column of a table. -/
structure Col where
  name : String
  cells : List CellV
deriving DecidableEq, Repr

/-- Coercion of a cell as `pd.to_numeric(df[c].astype(str).str.replace(",", ".")`:
raw strings go through the comma fix and the numeric parse, numerics pass
through, nulls stay null. -/
def coerceCellV : CellV → Option Num
  | .raw s => coerceCell s
  | .num n => some n
  | .null => none

/-- Count of successfully coerced (non-null) cells of a column:
`s.notna().sum()` after coercion. -/
def nonNull (c : Col) : Nat := c.cells.countP (fun v => (coerceCellV v).isSome)

/-- The candidate-selection loop of load_peace.  The accumulator mirrors
`best_col` / `best_non_null`; `none` stands for the initial state
`best_col = None, best_non_null = -1`, which every count exceeds, and the
comparison `non_null > best_non_null` is the strict `bn < nonNull c`. -/
def selectLoop : Option (Col × Nat) → List Col → Option (Col × Nat)
  | best, [] => best
  | none, c :: cs => selectLoop (some (c, nonNull c)) cs
  | some (b, bn), c :: cs =>
    if bn < nonNull c then selectLoop (some (c, nonNull c)) cs
    else selectLoop (some (b, bn)) cs

/-- Rename the first column (and every column sharing its label) to
"Country": `df.rename(columns={df.columns[0]: "Country"})`. -/
def renameFirst (cols : List Col) : List Col :=
  match cols with
  | [] => []
  | c0 :: _ => cols.map (fun c => if c.name = c0.name then { c with name := "Country" } else c)

/-- The column whose coerced values become Peace_Score: the loop winner if
there were candidate columns, else the last column (`df.iloc[:, -1]`). -/
def pickScoreCol (renamed : List Col) : Option Col :=
  match selectLoop none (renamed.drop 1) with
  | some bn => some bn.1
  | none => renamed.getLast?

/-- Coerce every cell of a column (numeric or null out). -/
def coerceColCells (c : Col) : List CellV :=
  c.cells.map (fun v => match coerceCellV v with | some n => CellV.num n | none => CellV.null)

/-- Column assignment `df[nm] = cells`: replace the first column with that
label in place, or append a new column at the end. -/
def setCol : List Col → String → List CellV → List Col
  | [], nm, cells => [⟨nm, cells⟩]
  | c :: cs, nm, cells =>
    if c.name = nm then ⟨nm, cells⟩ :: cs else c :: setCol cs nm cells

/-- Label-list selection `df[[n1, n2, ...]]`: for each requested label, all
columns bearing it, in table order (duplicated labels yield every match). -/
def selectCols (tbl : List Col) (names : List String) : List Col :=
  names.flatMap (fun n => tbl.filter (fun c => c.name == n))

/-- The Peace_Score cells: the coerced cells of the selected column (the
`best_col is not None` branch), or nothing when there is no column at all. -/
def psCells (renamed : List Col) : List CellV :=
  match pickScoreCol renamed with
  | some b => coerceColCells b
  | none => []

/-- load_peace of src/app.py: rename the first column to Country, pick the
best-coercing candidate column (or the last column when there are no
candidates), write its coerced values as Peace_Score, and select Country
and Peace_Score.  Error paths are modelled as none: a zero-column table
makes `df.columns[0]` raise IndexError, and a duplicated post-rename label
makes `df[c]` in the candidate loop a DataFrame, so `.astype(str).str`
raises AttributeError (every duplicate involves some candidate label, and
a label is duplicated after the rename exactly when the renamed label list
is not pairwise distinct). -/
def load_peace (cols : List Col) : Option (List Col) :=
  match cols with
  | [] => none
  | _ :: _ =>
    let renamed := renameFirst cols
    if ((renamed.map Col.name).Nodup) then
      some (selectCols (setCol renamed "Peace_Score" (psCells renamed))
        ["Country", "Peace_Score"])
    else none

lemma psCells_eq (renamed : List Col) (b : Col) (hb : pickScoreCol renamed = some b) :
    psCells renamed = coerceColCells b := by
  unfold psCells
  rw [hb]

lemma load_peace_eq_some (cols : List Col) (b : Col)
    (hne : cols ≠ []) (hnd : ((renameFirst cols).map Col.name).Nodup)
    (hb : pickScoreCol (renameFirst cols) = some b) :
    load_peace cols = some (selectCols (setCol (renameFirst cols) "Peace_Score"
      (coerceColCells b)) ["Country", "Peace_Score"]) := by
  match cols, hne, hnd, hb with
  | c :: cs, _, hnd, hb =>
    show (if ((renameFirst (c :: cs)).map Col.name).Nodup then
        some (selectCols (setCol (renameFirst (c :: cs)) "Peace_Score"
          (psCells (renameFirst (c :: cs)))) ["Country", "Peace_Score"])
      else none) = _
    rw [if_pos hnd, psCells_eq _ b hb]

lemma load_peace_eq_none (cols : List Col)
    (h : cols = [] ∨ ¬ ((renameFirst cols).map Col.name).Nodup) :
    load_peace cols = none := by
  match cols, h with
  | [], _ => rfl
  | c :: cs, h =>
    rcases h with h | h
    · cases h
    · show (if ((renameFirst (c :: cs)).map Col.name).Nodup then
          some (selectCols (setCol (renameFirst (c :: cs)) "Peace_Score"
            (psCells (renameFirst (c :: cs)))) ["Country", "Peace_Score"])
        else none) = none
      rw [if_neg h]

/-! ### Properties of the selection loop -/

lemma selectLoop_inv (cs : List Col) : ∀ (b : Col) (res : Col × Nat),
    selectLoop (some (b, nonNull b)) cs = some res →
    res.2 = nonNull res.1 ∧
    ((res.1 = b ∧ ∀ c ∈ cs, nonNull c ≤ nonNull b) ∨
      (∃ l₁ l₂, cs = l₁ ++ res.1 :: l₂ ∧ nonNull b < nonNull res.1 ∧
        (∀ c ∈ l₁, nonNull c < nonNull res.1) ∧ ∀ c ∈ l₂, nonNull c ≤ nonNull res.1)) := by
  induction cs with
  | nil =>
    intro b res h
    simp only [selectLoop, Option.some.injEq] at h
    subst h
    exact ⟨rfl, Or.inl ⟨rfl, by simp⟩⟩
  | cons c cs ih =>
    intro b res h
    by_cases hlt : nonNull b < nonNull c
    · simp only [selectLoop, if_pos hlt] at h
      rcases ih c res h with ⟨h2, hcase⟩
      refine ⟨h2, Or.inr ?_⟩
      rcases hcase with ⟨rfl, hbd⟩ | ⟨l₁, l₂, hsplit, hgt, hl₁, hl₂⟩
      · exact ⟨[], cs, by simp, hlt, by simp, hbd⟩
      · refine ⟨c :: l₁, l₂, by rw [hsplit]; rfl, lt_trans hlt hgt, ?_, hl₂⟩
        intro x hx
        rcases List.mem_cons.mp hx with rfl | hx
        · exact hgt
        · exact hl₁ x hx
    · simp only [selectLoop, if_neg hlt] at h
      rcases ih b res h with ⟨h2, hcase⟩
      refine ⟨h2, ?_⟩
      rcases hcase with ⟨rfl, hbd⟩ | ⟨l₁, l₂, hsplit, hgt, hl₁, hl₂⟩
      · refine Or.inl ⟨rfl, ?_⟩
        intro x hx
        rcases List.mem_cons.mp hx with rfl | hx
        · exact le_of_not_lt hlt
        · exact hbd x hx
      · refine Or.inr ⟨c :: l₁, l₂, by rw [hsplit]; rfl, hgt, ?_, hl₂⟩
        intro x hx
        rcases List.mem_cons.mp hx with rfl | hx
        · exact lt_of_le_of_lt (le_of_not_lt hlt) hgt
        · exact hl₁ x hx

lemma selectLoop_acc_some (cs : List Col) : ∀ b : Col,
    ∃ res, selectLoop (some (b, nonNull b)) cs = some res := by
  induction cs with
  | nil => intro b; exact ⟨(b, nonNull b), rfl⟩
  | cons c cs ih =>
    intro b
    by_cases hlt : nonNull b < nonNull c
    · rcases ih c with ⟨res, hres⟩
      exact ⟨res, by simp only [selectLoop, if_pos hlt]; exact hres⟩
    · rcases ih b with ⟨res, hres⟩
      exact ⟨res, by simp only [selectLoop, if_neg hlt]; exact hres⟩

/-- C6: the candidate loop of load_peace selects the candidate column with
the strictly greatest non-null coercion count, and on a tie the leftmost
(earliest) candidate wins; on an empty candidate list it selects nothing. -/
theorem C6_selectLoop_leftmost_max (cands : List Col) :
    (cands = [] → selectLoop none cands = none) ∧
    ∀ b n, selectLoop none cands = some (b, n) →
      n = nonNull b ∧ b ∈ cands ∧ (∀ c ∈ cands, nonNull c ≤ nonNull b) ∧
      ∃ l₁ l₂, cands = l₁ ++ b :: l₂ ∧ ∀ c ∈ l₁, nonNull c < nonNull b := by
  constructor
  · rintro rfl; rfl
  · intro b n h
    match cands, h with
    | c :: cs, h =>
      have h' : selectLoop (some (c, nonNull c)) cs = some (b, n) := h
      rcases selectLoop_inv cs c (b, n) h' with ⟨h2, hcase⟩
      rcases hcase with ⟨hb, hbd⟩ | ⟨l₁, l₂, hsplit, hgt, hl₁, hl₂⟩
      · subst hb
        refine ⟨h2, List.mem_cons_self _ _, ?_, [], cs, rfl, by simp⟩
        intro x hx
        rcases List.mem_cons.mp hx with rfl | hx
        · exact le_refl _
        · exact hbd x hx
      · refine ⟨h2, ?_, ?_, c :: l₁, l₂, by rw [hsplit]; rfl, ?_⟩
        · rw [hsplit]
          exact List.mem_cons_of_mem _ (List.mem_append_right _ (List.mem_cons_self _ _))
        · intro x hx
          rcases List.mem_cons.mp hx with rfl | hx
          · exact le_of_lt hgt
          · rw [hsplit] at hx
            rcases List.mem_append.mp hx with hx | hx
            · exact le_of_lt (hl₁ x hx)
            · rcases List.mem_cons.mp hx with rfl | hx
              · exact le_refl _
              · exact hl₂ x hx
        · intro x hx
          rcases List.mem_cons.mp hx with rfl | hx
          · exact hgt
          · exact hl₁ x hx

/-- Example candidates with non-null counts 12, 47, 47 (indices 0, 1, 2). -/
def exCol12 : Col := ⟨"2021", List.replicate 12 (CellV.num ⟨1, 0⟩) ++ List.replicate 35 CellV.null⟩

def exCol47a : Col := ⟨"2022", List.replicate 47 (CellV.num ⟨1, 0⟩)⟩

def exCol47b : Col := ⟨"2023", List.replicate 47 (CellV.num ⟨2, 0⟩)⟩

def exCands : List Col := [exCol12, exCol47a, exCol47b]

/-- C6 witness: with non-null counts 12, 47, 47 the loop selects index 1,
the leftmost of the tied maximum, with count 47. -/
theorem C6_witness :
    nonNull exCol12 = 12 ∧ nonNull exCol47a = 47 ∧ nonNull exCol47b = 47 ∧
    (47 = nonNull exCol47a ∧ exCol47a ∈ exCands ∧
      (∀ c ∈ exCands, nonNull c ≤ nonNull exCol47a) ∧
      ∃ l₁ l₂, exCands = l₁ ++ exCol47a :: l₂ ∧ ∀ c ∈ l₁, nonNull c < nonNull exCol47a) := by
  refine ⟨by decide, by decide, by decide, ?_⟩
  exact (C6_selectLoop_leftmost_max exCands).2 exCol47a 47 (by decide)

lemma selectLoop_all_zero (cs : List Col) : ∀ b : Col, nonNull b = 0 →
    (∀ c ∈ cs, nonNull c = 0) → selectLoop (some (b, nonNull b)) cs = some (b, nonNull b) := by
  induction cs with
  | nil => intro b _ _; rfl
  | cons c cs ih =>
    intro b hb hall
    have hc : nonNull c = 0 := hall c (List.mem_cons_self _ _)
    have hnlt : ¬ nonNull b < nonNull c := by omega
    simp only [selectLoop, if_neg hnlt]
    exact ih b hb (fun x hx => hall x (List.mem_cons_of_mem _ hx))

/-- C4 amended: when every candidate column yields zero non-null coerced
values, load_peace selects the FIRST candidate column (the column at index
1), because the initial best count is -1 and the first zero count already
beats it; the last-column fallback applies only when the table has no
candidate columns at all (a single-column table), in which case the only
column is selected. -/
theorem C4_zero_count_selection :
    (∀ (c0 r0 : Col) (rest : List Col), (∀ c ∈ r0 :: rest, nonNull c = 0) →
      pickScoreCol (c0 :: r0 :: rest) = some r0) ∧
    (∀ c0 : Col, pickScoreCol [c0] = some c0) := by
  constructor
  · intro c0 r0 rest hall
    have h0 : nonNull r0 = 0 := hall r0 (List.mem_cons_self _ _)
    have h1 : selectLoop (some (r0, nonNull r0)) rest = some (r0, nonNull r0) :=
      selectLoop_all_zero rest r0 h0 (fun x hx => hall x (List.mem_cons_of_mem _ hx))
    simp only [pickScoreCol, List.drop_succ_cons, List.drop_zero]
    have h2 : selectLoop none (r0 :: rest) = some (r0, nonNull r0) := h1
    rw [h2]
  · intro c0; rfl

/-- A degenerate three-column peace table: no cell of any candidate column
coerces to a number. -/
def exPeaceRaw : List Col :=
  [⟨"Country", [CellV.raw "Atlantis"]⟩, ⟨"2022", [CellV.raw "abc"]⟩, ⟨"2023", [CellV.raw "xyz"]⟩]

/-- C4 counterexample: on an all-degenerate table the selector picks the
FIRST candidate column ("2022"), not the last column ("2023") that the
claim announces as the fallback. -/
theorem C4_counterexample :
    pickScoreCol (renameFirst exPeaceRaw) = some ⟨"2022", [CellV.raw "abc"]⟩ ∧
    (renameFirst exPeaceRaw).getLast? = some ⟨"2023", [CellV.raw "xyz"]⟩ ∧
    (⟨"2022", [CellV.raw "abc"]⟩ : Col) ≠ ⟨"2023", [CellV.raw "xyz"]⟩ := by
  refine ⟨by decide, by decide, by decide⟩

/-- C4 witness: the amended theorem on a concrete degenerate table, and on
a concrete single-column table. -/
theorem C4_witness :
    pickScoreCol [⟨"Country", [CellV.raw "X"]⟩, ⟨"A", [CellV.raw "q"]⟩, ⟨"B", [CellV.raw "r"]⟩]
      = some ⟨"A", [CellV.raw "q"]⟩ ∧
    pickScoreCol [⟨"Country", [CellV.raw "X"]⟩] = some ⟨"Country", [CellV.raw "X"]⟩ := by
  constructor
  · exact C4_zero_count_selection.1 ⟨"Country", [CellV.raw "X"]⟩ ⟨"A", [CellV.raw "q"]⟩
      [⟨"B", [CellV.raw "r"]⟩] (by decide)
  · exact C4_zero_count_selection.2 ⟨"Country", [CellV.raw "X"]⟩

/-! ### Shape of the load_peace output (C10, C8) -/

lemma getLast?_mem_self {α : Type} : ∀ (l : List α) (a : α), l.getLast? = some a → a ∈ l := by
  intro l
  induction l with
  | nil => intro a h; cases h
  | cons x xs ih =>
    intro a h
    match xs, h with
    | [], h => simp at h; subst h; exact List.mem_cons_self _ _
    | y :: ys, h =>
      have h' : (y :: ys).getLast? = some a := h
      exact List.mem_cons_of_mem _ (ih a h')

lemma renameFirst_cons (c0 : Col) (rest : List Col) (h : c0.name ∉ rest.map Col.name) :
    renameFirst (c0 :: rest) = ⟨"Country", c0.cells⟩ :: rest := by
  simp only [renameFirst, List.map_cons, if_pos rfl]
  congr 1
  have : ∀ c ∈ rest, (if c.name = c0.name then ({ c with name := "Country" } : Col) else c) = c := by
    intro c hc
    rw [if_neg]
    intro he
    exact h (by rw [← he]; exact List.mem_map_of_mem Col.name hc)
  rw [List.map_congr_left this]
  simp

lemma setCol_filter_eq (nm : String) (cells : List CellV) :
    ∀ T : List Col, (T.map Col.name).Nodup →
    (setCol T nm cells).filter (fun c => c.name == nm) = [⟨nm, cells⟩] := by
  intro T
  induction T with
  | nil => intro _; simp [setCol]
  | cons c cs ih =>
    intro hnd
    have hnd2 : (Col.name c :: cs.map Col.name).Nodup := by simpa using hnd
    have hni : c.name ∉ cs.map Col.name := (List.nodup_cons.mp hnd2).1
    have hnd' : (cs.map Col.name).Nodup := (List.nodup_cons.mp hnd2).2
    by_cases h : c.name = nm
    · simp only [setCol, if_pos h, List.filter_cons]
      have : ((⟨nm, cells⟩ : Col).name == nm) = true := by simp
      rw [if_pos this]
      have hnil : cs.filter (fun x => x.name == nm) = [] := by
        rw [List.filter_eq_nil_iff]
        intro x hx hbeq
        have hxnm : x.name = nm := by simpa using hbeq
        apply hni
        rw [h, ← hxnm]
        exact List.mem_map_of_mem Col.name hx
      rw [hnil]
    · simp only [setCol, if_neg h, List.filter_cons]
      have : (c.name == nm) = false := by simpa using h
      rw [this]
      simp only [Bool.false_eq_true, if_false]
      exact ih hnd'

lemma setCol_filter_ne (nm nm' : String) (h : nm' ≠ nm) (cells : List CellV) :
    ∀ T : List Col,
    (setCol T nm cells).filter (fun c => c.name == nm') = T.filter (fun c => c.name == nm') := by
  intro T
  induction T with
  | nil =>
    simp only [setCol, List.filter_cons, List.filter_nil]
    have : ((⟨nm, cells⟩ : Col).name == nm') = false := by simpa using (Ne.symm h)
    rw [this]
    simp
  | cons c cs ih =>
    by_cases hc : c.name = nm
    · simp only [setCol, if_pos hc, List.filter_cons]
      have h1 : ((⟨nm, cells⟩ : Col).name == nm') = false := by simpa using (Ne.symm h)
      have h2 : (c.name == nm') = false := by
        simp only [beq_eq_false_iff_ne, ne_eq]
        rw [hc]; exact Ne.symm h
      rw [h1, h2]
      simp
    · simp only [setCol, if_neg hc, List.filter_cons]
      rw [ih]

lemma setCol_mem (nm : String) (cells : List CellV) :
    ∀ (T : List Col) (c : Col), c ∈ setCol T nm cells → c ∈ T ∨ c = ⟨nm, cells⟩ := by
  intro T
  induction T with
  | nil => intro c hc; simp [setCol] at hc; exact Or.inr hc
  | cons x xs ih =>
    intro c hc
    by_cases h : x.name = nm
    · simp only [setCol, if_pos h] at hc
      rcases List.mem_cons.mp hc with rfl | hc
      · exact Or.inr rfl
      · exact Or.inl (List.mem_cons_of_mem _ hc)
    · simp only [setCol, if_neg h] at hc
      rcases List.mem_cons.mp hc with rfl | hc
      · exact Or.inl (List.mem_cons_self _ _)
      · rcases ih c hc with hin | heq
        · exact Or.inl (List.mem_cons_of_mem _ hin)
        · exact Or.inr heq

lemma selectCols_mem (T : List Col) (names : List String) (c : Col)
    (h : c ∈ selectCols T names) : c ∈ T := by
  rcases List.mem_flatMap.mp h with ⟨nm, _, hc⟩
  exact (List.mem_filter.mp hc).1

lemma renameFirst_cells (cols : List Col) (c : Col) (h : c ∈ renameFirst cols) :
    ∃ c₀ ∈ cols, c.cells = c₀.cells := by
  match cols with
  | [] => cases h
  | c0 :: rest =>
    rcases List.mem_map.mp h with ⟨x, hx, hfx⟩
    refine ⟨x, hx, ?_⟩
    by_cases hn : x.name = c0.name
    · rw [if_pos hn] at hfx; rw [← hfx]
    · rw [if_neg hn] at hfx; rw [← hfx]

lemma pickScoreCol_isSome (renamed : List Col) (hne : renamed ≠ []) :
    ∃ b, pickScoreCol renamed = some b := by
  unfold pickScoreCol
  match hdrop : renamed.drop 1 with
  | [] =>
    simp only [selectLoop]
    match renamed, hne with
    | c :: cs, _ =>
      match hl : (c :: cs).getLast? with
      | some b => exact ⟨b, rfl⟩
      | none => simp [List.getLast?] at hl
  | r :: rs =>
    rcases selectLoop_acc_some rs r with ⟨res, hres⟩
    have : selectLoop none (r :: rs) = some res := hres
    rw [this]
    exact ⟨res.1, rfl⟩

lemma pickScoreCol_mem (renamed : List Col) (b : Col)
    (h : pickScoreCol renamed = some b) : b ∈ renamed := by
  unfold pickScoreCol at h
  match hdrop : renamed.drop 1 with
  | [] =>
    rw [hdrop] at h
    simp only [selectLoop] at h
    exact getLast?_mem_self renamed b h
  | r :: rs =>
    rw [hdrop] at h
    rcases selectLoop_acc_some rs r with ⟨res, hres⟩
    have hsl : selectLoop none (r :: rs) = some res := hres
    rw [hsl] at h
    have hb : res.1 = b := by injection h
    rcases selectLoop_inv rs r res hres with ⟨_, hcase⟩
    have hmem : res.1 ∈ r :: rs := by
      rcases hcase with ⟨he, _⟩ | ⟨l₁, l₂, hsplit, _, _, _⟩
      · rw [he]; exact List.mem_cons_self _ _
      · rw [hsplit]
        exact List.mem_cons_of_mem _ (List.mem_append_right _ (List.mem_cons_self _ _))
    have : res.1 ∈ renamed.drop 1 := by rw [hdrop]; exact hmem
    exact hb ▸ List.drop_subset 1 renamed this

/-- C10 amended: for every input table with at least one column whose
post-rename column labels are pairwise distinct (otherwise the candidate
loop hits a duplicated label and the loader aborts), load_peace returns
exactly the columns Country and Peace_Score in that order, where Country
carries the first input column cells unchanged and Peace_Score the coerced
cells of the selected score column. -/
theorem C10_load_peace_shape (c0 : Col) (rest : List Col)
    (hnd : ((renameFirst (c0 :: rest)).map Col.name).Nodup) :
    ∃ b, pickScoreCol (renameFirst (c0 :: rest)) = some b ∧
      load_peace (c0 :: rest) =
        some [⟨"Country", c0.cells⟩, ⟨"Peace_Score", coerceColCells b⟩] := by
  have hx : c0.name ∉ rest.map Col.name := by
    intro hmem
    rcases List.mem_map.mp hmem with ⟨c, hc, hcn⟩
    have hhead : (renameFirst (c0 :: rest)).map Col.name =
        "Country" :: (rest.map (fun c =>
          if c.name = c0.name then ({ c with name := "Country" } : Col) else c)).map
            Col.name := by
      simp only [renameFirst, List.map_cons, if_pos rfl]
      simp
    have hcin : "Country" ∈ (rest.map (fun c =>
        if c.name = c0.name then ({ c with name := "Country" } : Col) else c)).map
          Col.name := by
      refine List.mem_map.mpr ⟨{ c with name := "Country" }, ?_, rfl⟩
      refine List.mem_map.mpr ⟨c, hc, ?_⟩
      rw [if_pos hcn]
    rw [hhead] at hnd
    exact (List.nodup_cons.mp hnd).1 hcin
  have hren : renameFirst (c0 :: rest) = ⟨"Country", c0.cells⟩ :: rest :=
    renameFirst_cons c0 rest hx
  have hnd' : ((⟨"Country", c0.cells⟩ :: rest).map Col.name).Nodup := by
    rw [← hren]
    exact hnd
  have hnc : "Country" ∉ rest.map Col.name := by
    have h2 : ("Country" :: rest.map Col.name).Nodup := by simpa using hnd'
    exact (List.nodup_cons.mp h2).1
  rcases pickScoreCol_isSome (⟨"Country", c0.cells⟩ :: rest) (by simp) with ⟨b, hb⟩
  have hb' : pickScoreCol (renameFirst (c0 :: rest)) = some b := by
    rw [hren]
    exact hb
  refine ⟨b, hb', ?_⟩
  rw [load_peace_eq_some (c0 :: rest) b (by simp) hnd hb', hren]
  refine congrArg some ?_
  have hndT := hnd'
  have hPS := setCol_filter_eq "Peace_Score" (coerceColCells b) _ hndT
  have hC := setCol_filter_ne "Peace_Score" "Country" (by decide) (coerceColCells b)
    ((⟨"Country", c0.cells⟩ : Col) :: rest)
  have hCfil : (((⟨"Country", c0.cells⟩ : Col) :: rest).filter (fun c => c.name == "Country"))
      = [⟨"Country", c0.cells⟩] := by
    simp only [List.filter_cons]
    have h1 : ((⟨"Country", c0.cells⟩ : Col).name == "Country") = true := rfl
    rw [if_pos h1]
    have : rest.filter (fun c => c.name == "Country") = [] := by
      rw [List.filter_eq_nil_iff]
      intro x hx hbeq
      exact hnc (by
        have : x.name = "Country" := by simpa using hbeq
        exact this ▸ List.mem_map_of_mem Col.name hx)
    rw [this]
  simp only [selectCols, List.flatMap_cons, List.flatMap_nil, List.append_nil]
  rw [hC, hCfil, hPS]
  rfl

/-- A table whose second column is already labeled Country: after the
first-column rename, two columns carry the label Country. -/
def exDupCols : List Col := [⟨"X", [CellV.raw "a"]⟩, ⟨"Country", [CellV.raw "b"]⟩]

/-- C10 counterexample: when a later input column is already labeled
Country, the first-column rename duplicates the label Country, the
candidate loop accesses that duplicated label (a DataFrame, not a Series)
and the loader aborts - it returns no table at all, rather than one whose
columns are exactly Country and Peace_Score. -/
theorem C10_counterexample :
    (renameFirst exDupCols).map Col.name = ["Country", "Country"] ∧
    load_peace exDupCols = none := by
  refine ⟨by decide, by decide⟩

/-- C10 witness: the amended theorem evaluated on a concrete two-column
table with the comma-decimal cell "1,5". -/
theorem C10_witness :
    load_peace [⟨"Nation", [CellV.raw "X"]⟩, ⟨"2022", [CellV.raw "1,5"]⟩] =
      some [⟨"Country", [CellV.raw "X"]⟩, ⟨"Peace_Score", [CellV.num ⟨15, 1⟩]⟩] := by
  rcases C10_load_peace_shape ⟨"Nation", [CellV.raw "X"]⟩ [⟨"2022", [CellV.raw "1,5"]⟩]
    (by decide) with ⟨b, hb, hout⟩
  have hb2 : b = ⟨"2022", [CellV.raw "1,5"]⟩ := by
    have hconc : pickScoreCol (renameFirst
        [⟨"Nation", [CellV.raw "X"]⟩, ⟨"2022", [CellV.raw "1,5"]⟩])
        = some ⟨"2022", [CellV.raw "1,5"]⟩ := by decide
    rw [hconc] at hb
    injection hb with hb
    exact hb.symm
  rw [hout, hb2]
  rfl

/-- C8: numeric coercion is total, never an exception: every raw cell,
including the empty string and unparseable text, coerces to a numeric or
to null; and a coercion failure on a cell never aborts the loader: whether
load_peace aborts depends only on the column labels (exactly the empty
table and a duplicated post-rename label, where the candidate loop
raises), never on cell contents, and with distinct labels it returns a
nonempty table whose every column has one cell per input row. -/
theorem C8_coercion_total :
    (∀ s : String, coerceCell s = none ∨ ∃ n, coerceCell s = some n) ∧
    (∀ v : CellV, coerceCellV v = none ∨ ∃ n, coerceCellV v = some n) ∧
    coerceCell "" = none ∧ coerceCell "abc" = none ∧
    parseNum "" = none ∧ parseNum "12;7" = none ∧
    (∀ cols : List Col, load_peace cols = none ↔
      (cols = [] ∨ ¬ ((renameFirst cols).map Col.name).Nodup)) ∧
    ∀ (cols : List Col) (nrows : Nat), cols ≠ [] →
      ((renameFirst cols).map Col.name).Nodup →
      (∀ c ∈ cols, c.cells.length = nrows) →
      ∃ t, load_peace cols = some t ∧ t ≠ [] ∧ ∀ oc ∈ t, oc.cells.length = nrows := by
  refine ⟨?_, ?_, by decide, by decide, by decide, by decide, ?_, ?_⟩
  · intro s
    match h : coerceCell s with
    | none => exact Or.inl rfl
    | some n => exact Or.inr ⟨n, rfl⟩
  · intro v
    match h : coerceCellV v with
    | none => exact Or.inl rfl
    | some n => exact Or.inr ⟨n, rfl⟩
  · intro cols
    constructor
    · intro hnone
      match cols, hnone with
      | [], _ => exact Or.inl rfl
      | c :: cs, hnone =>
        by_cases hnd : ((renameFirst (c :: cs)).map Col.name).Nodup
        · exfalso
          have hrenne : renameFirst (c :: cs) ≠ [] := by
            simp [renameFirst]
          rcases pickScoreCol_isSome (renameFirst (c :: cs)) hrenne with ⟨b, hb⟩
          rw [load_peace_eq_some (c :: cs) b (by simp) hnd hb] at hnone
          cases hnone
        · exact Or.inr hnd
    · exact load_peace_eq_none cols
  · intro cols nrows hne hnd hlen
    match cols, hne, hnd, hlen with
    | c :: cs, _, hnd, hlen =>
      have hrenne : renameFirst (c :: cs) ≠ [] := by
        simp [renameFirst]
      have hrenlen : ∀ x ∈ renameFirst (c :: cs), x.cells.length = nrows := by
        intro x hx
        rcases renameFirst_cells (c :: cs) x hx with ⟨x₀, hx₀, hcells⟩
        rw [hcells]
        exact hlen x₀ hx₀
      rcases pickScoreCol_isSome (renameFirst (c :: cs)) hrenne with ⟨b, hb⟩
      have hblen : (coerceColCells b).length = nrows := by
        have : b ∈ renameFirst (c :: cs) := pickScoreCol_mem _ _ hb
        simp only [coerceColCells, List.length_map]
        exact hrenlen b this
      refine ⟨selectCols (setCol (renameFirst (c :: cs)) "Peace_Score" (coerceColCells b))
          ["Country", "Peace_Score"],
        load_peace_eq_some (c :: cs) b (by simp) hnd hb, ?_, ?_⟩
      · intro hnil
        have hhead : ∃ tc tcs, renameFirst (c :: cs) = tc :: tcs ∧ tc.name = "Country" := by
          simp only [renameFirst, List.map_cons, if_pos rfl]
          exact ⟨_, _, rfl, rfl⟩
        rcases hhead with ⟨tc, tcs, hT, htc⟩
        have htcmem : tc ∈ setCol (renameFirst (c :: cs)) "Peace_Score" (coerceColCells b) := by
          rw [hT]
          simp only [setCol]
          rw [if_neg (by rw [htc]; decide)]
          exact List.mem_cons_self _ _
        have : tc ∈ selectCols (setCol (renameFirst (c :: cs)) "Peace_Score" (coerceColCells b))
            ["Country", "Peace_Score"] := by
          apply List.mem_flatMap.mpr
          refine ⟨"Country", by simp, ?_⟩
          exact List.mem_filter.mpr ⟨htcmem, by simp [htc]⟩
        rw [hnil] at this
        cases this
      · intro oc hoc
        have hmem := selectCols_mem _ _ _ hoc
        rcases setCol_mem _ _ _ _ hmem with hin | heq
        · exact hrenlen oc hin
        · rw [heq]
          exact hblen

/-- C8 witness: the loader on a concrete two-row distinct-label table
containing an unparseable cell still succeeds with full-length columns. -/
theorem C8_witness :
    ∃ t, load_peace [⟨"Country", [CellV.raw "A", CellV.raw "B"]⟩,
        ⟨"2022", [CellV.raw "oops", CellV.raw "2,5"]⟩] = some t ∧ t ≠ [] ∧
      ∀ oc ∈ t, oc.cells.length = 2 := by
  exact C8_coercion_total.2.2.2.2.2.2.2
    [⟨"Country", [CellV.raw "A", CellV.raw "B"]⟩, ⟨"2022", [CellV.raw "oops", CellV.raw "2,5"]⟩]
    2 (by decide) (by decide) (by decide)

/-! ### Alias resolution (normalize_cols / pick, src/Fa1z_dashboard/app.py)

The dictionary `low = {c.lower(): c for c in df.columns}` maps the lowered
form of each header to the header itself; a later duplicate overwrites an
earlier one, so a lookup returns the LAST header with that lowered form.
`pick(*cands)` returns `low[c]` for the first candidate `c` present. -/

/-- Lookup in the lowered-header dictionary. -/
def lowGet (headers : List String) (key : String) : Option String :=
  (headers.filter (fun h => lowerStr h == key)).getLast?

/-- The pick helper: first candidate whose lowered form is a header. -/
def pick (headers : List String) : List String → Option String
  | [] => none
  | c :: cs =>
    match lowGet headers c with
    | some h => some h
    | none => pick headers cs

lemma getLast?_eq_none_iff {α : Type} : ∀ l : List α, l.getLast? = none ↔ l = [] := by
  intro l
  constructor
  · intro h
    match l, h with
    | [], _ => rfl
    | [a], h => simp [List.getLast?] at h
    | a :: b :: bs, h =>
      have h2 : (b :: bs).getLast? = none := by
        rw [List.getLast?_cons_cons] at h
        exact h
      have := (getLast?_eq_none_iff (b :: bs)).mp h2
      cases this
  · rintro rfl; rfl

lemma lowGet_none_iff (headers : List String) (key : String) :
    lowGet headers key = none ↔ ∀ h ∈ headers, lowerStr h ≠ key := by
  unfold lowGet
  rw [getLast?_eq_none_iff, List.filter_eq_nil_iff]
  constructor
  · intro hall h hh heq
    exact hall h hh (by simpa using heq)
  · intro hall h hh hbeq
    exact hall h hh (by simpa using hbeq)

lemma lowGet_some_mem (headers : List String) (key h : String)
    (hg : lowGet headers key = some h) : h ∈ headers ∧ lowerStr h = key := by
  have hm := getLast?_mem_self _ h hg
  have := List.mem_filter.mp hm
  exact ⟨this.1, by simpa using this.2⟩

/-- C7: alias resolution is case-insensitive and priority ordered.  The
pick helper returns the dictionary entry of the first candidate spelling
whose lowered form occurs among the headers (so the output equals find?
over the candidates followed by the dictionary lookup); when a single
header matches a single candidate spelling in any letter case, that header
is returned; and when no candidate matches any header the field is absent
(pick yields none). -/
theorem C7_alias_resolution (headers cands : List String) :
    pick headers cands =
      (cands.find? (fun c => headers.any (fun h => lowerStr h == c))).bind (lowGet headers) ∧
    (∀ h c, h ∈ headers → c ∈ cands → lowerStr h = c →
      (∀ h' ∈ headers, ∀ c' ∈ cands, lowerStr h' = c' → h' = h ∧ c' = c) →
      pick headers cands = some h) ∧
    ((∀ h ∈ headers, ∀ c ∈ cands, lowerStr h ≠ c) → pick headers cands = none) := by
  refine ⟨?_, ?_, ?_⟩
  · induction cands with
    | nil => rfl
    | cons c cs ih =>
      match hg : lowGet headers c with
      | some h =>
        have hany : (headers.any (fun h => lowerStr h == c)) = true := by
          rcases lowGet_some_mem headers c h hg with ⟨hh, hlow⟩
          exact List.any_eq_true.mpr ⟨h, hh, by simpa using hlow⟩
        have hfind : List.find? (fun c => headers.any (fun h => lowerStr h == c)) (c :: cs)
            = some c :=
          @List.find?_cons_of_pos String (fun c => headers.any (fun h => lowerStr h == c))
            c cs hany
        rw [hfind]
        simp only [pick, hg, Option.some_bind]
      | none =>
        have hany : (headers.any (fun h => lowerStr h == c)) = false := by
          rw [List.any_eq_false]
          intro h hh
          have := (lowGet_none_iff headers c).mp hg h hh
          simpa using this
        have hnp : ¬ ((fun c => headers.any (fun h => lowerStr h == c)) c = true) := by
          show ¬ ((headers.any fun h => lowerStr h == c) = true)
          rw [hany]
          exact Bool.false_ne_true
        have hfind : List.find? (fun c => headers.any (fun h => lowerStr h == c)) (c :: cs)
            = List.find? (fun c => headers.any (fun h => lowerStr h == c)) cs :=
          @List.find?_cons_of_neg String (fun c => headers.any (fun h => lowerStr h == c))
            c cs hnp
        rw [hfind]
        simpa only [pick, hg] using ih
  · induction cands with
    | nil => intro h c _ hc; cases hc
    | cons c' cs ih =>
      intro h c hh hc hlow huniq
      match hg : lowGet headers c' with
      | some h₀ =>
        rcases lowGet_some_mem headers c' h₀ hg with ⟨hh₀, hlow₀⟩
        have := huniq h₀ hh₀ c' (List.mem_cons_self _ _) hlow₀
        simp only [pick, hg]
        rw [this.1]
      | none =>
        have hcc : c ≠ c' := by
          intro he
          exact (lowGet_none_iff headers c').mp hg h hh (he ▸ hlow)
        have hcs : c ∈ cs := by
          rcases List.mem_cons.mp hc with he | hcs
          · exact absurd he hcc
          · exact hcs
        simp only [pick, hg]
        exact ih h c hh hcs hlow
          (fun h' hh' c' hc' hl' => huniq h' hh' c' (List.mem_cons_of_mem _ hc') hl')
  · induction cands with
    | nil => intro _; rfl
    | cons c cs ih =>
      intro hall
      have hg : lowGet headers c = none :=
        (lowGet_none_iff headers c).mpr (fun h hh => hall h hh c (List.mem_cons_self _ _))
      simp only [pick, hg]
      exact ih (fun h hh c' hc' => hall h hh c' (List.mem_cons_of_mem _ hc'))

/-- C7 witness: a header "Ladder Score" (mixed case) resolves through the
happiness-score candidate list to itself. -/
theorem C7_witness :
    pick ["Ladder Score"] ["ladder score", "life ladder", "happiness score", "score"] =
      some "Ladder Score" := by
  exact (C7_alias_resolution ["Ladder Score"]
      ["ladder score", "life ladder", "happiness score", "score"]).2.1
    "Ladder Score" "ladder score" (by decide) (by decide) (by decide) (by decide)

/-! ### normalize_cols at column level and the required-fields gate (C9) -/

def countryCands : List String := ["country name", "country", "countryname", "name"]

def yearCands : List String := ["year"]

def regionCands : List String :=
  ["regional indicator", "region", "regional_indicator", "subregion", "continent"]

def scoreCands : List String := ["ladder score", "life ladder", "happiness score", "score"]

def gdpCands : List String :=
  ["logged gdp per capita", "gdp per capita", "log gdp per capita", "gdp"]

def socialCands : List String := ["social support", "social_support"]

def healthyCands : List String :=
  ["healthy life expectancy at birth", "healthy life expectancy", "life expectancy"]

def freedomCands : List String := ["freedom to make life choices", "freedom"]

def generosityCands : List String := ["generosity"]

def corruptionCands : List String := ["perceptions of corruption", "corruption"]

/-- The canonical fields of normalize_cols with their candidate spellings. -/
def fieldAliases : List (String × List String) :=
  [("Country", countryCands), ("Year", yearCands), ("Region", regionCands),
   ("HappinessScore", scoreCands), ("GDPperCapita", gdpCands),
   ("SocialSupport", socialCands), ("HealthyLife", healthyCands),
   ("Freedom", freedomCands), ("Generosity", generosityCands),
   ("Corruption", corruptionCands)]

/-- The rename mapping (raw header, canonical name) built by normalize_cols. -/
def buildMapping (headers : List String) : List (String × String) :=
  fieldAliases.filterMap (fun fc => (pick headers fc.2).map (fun raw => (raw, fc.1)))

/-- Rename one header through the mapping (unmapped headers unchanged). -/
def renameHeader (mapping : List (String × String)) (h : String) : String :=
  match mapping.find? (fun p => p.1 == h) with
  | some p => p.2
  | none => h

/-- The column list after normalize_cols: resolved headers renamed to
canonical names, then a Year column and a Region column appended when
absent (the source defaults Year to NA and Region to "Unknown"). -/
def normalize_cols (headers : List String) : List String :=
  let renamed := headers.map (renameHeader (buildMapping headers))
  let withYear := if "Year" ∈ renamed then renamed else renamed ++ ["Year"]
  if "Region" ∈ withYear then withYear else withYear ++ ["Region"]

/-- The module-level required-fields gate: halt (error) with the missing
canonical fields and the available normalized columns, or continue. -/
def requiredFields : List String := ["Country", "Region", "HappinessScore"]

def requiredCheck (cols : List String) : Except (List String × List String) (List String) :=
  let missing := requiredFields.filter (fun c => !(cols.contains c))
  if missing.isEmpty then .ok cols else .error (missing, cols)

lemma normalize_cols_year_region (headers : List String) :
    "Year" ∈ normalize_cols headers ∧ "Region" ∈ normalize_cols headers := by
  unfold normalize_cols
  set renamed := headers.map (renameHeader (buildMapping headers)) with hren
  have hY : "Year" ∈ (if "Year" ∈ renamed then renamed else renamed ++ ["Year"]) := by
    by_cases h : "Year" ∈ renamed
    · simp only [if_pos h]
      exact h
    · simp [h]
  set wy := if "Year" ∈ renamed then renamed else renamed ++ ["Year"] with hwy
  constructor
  · by_cases hR : "Region" ∈ wy
    · simp only [if_pos hR]
      exact hY
    · simp only [if_neg hR]
      exact List.mem_append_left _ hY
  · by_cases hR : "Region" ∈ wy
    · simp only [if_pos hR]
      exact hR
    · simp only [if_neg hR]
      exact List.mem_append_right _ (List.mem_cons_self _ _)

/-- C9 amended: Region (and Year) are always present after normalize_cols
because missing ones are defaulted, so the gate can only halt on a missing
Country or HappinessScore; when both are present processing continues; when
the gate halts it carries the missing canonical fields (never Region) and
the normalized column list that was available. -/
theorem C9_required_gate (headers : List String) :
    ("Year" ∈ normalize_cols headers ∧ "Region" ∈ normalize_cols headers) ∧
    (("Country" ∈ normalize_cols headers ∧ "HappinessScore" ∈ normalize_cols headers) →
      requiredCheck (normalize_cols headers) = .ok (normalize_cols headers)) ∧
    ∀ m p, requiredCheck (normalize_cols headers) = .error (m, p) →
      p = normalize_cols headers ∧ "Region" ∉ m ∧ m ≠ [] ∧
      (∀ c ∈ m, (c = "Country" ∨ c = "HappinessScore") ∧ c ∉ normalize_cols headers) := by
  have hYR := normalize_cols_year_region headers
  set nc := normalize_cols headers with hnc
  have hconts : ∀ a : String, a ∈ nc → nc.contains a = true := by
    intro a ha
    exact List.elem_eq_true_of_mem ha
  refine ⟨hYR, ?_, ?_⟩
  · intro ⟨hC, hH⟩
    have hmiss : requiredFields.filter (fun c => !(nc.contains c)) = [] := by
      rw [List.filter_eq_nil_iff]
      intro c hcmem hkeep
      have hcmem3 : c = "Country" ∨ c = "Region" ∨ c = "HappinessScore" := by
        simpa [requiredFields] using hcmem
      have hcin : c ∈ nc := by
        rcases hcmem3 with h | h | h
        · exact h ▸ hC
        · exact h ▸ hYR.2
        · exact h ▸ hH
      rw [hconts c hcin] at hkeep
      simp at hkeep
    unfold requiredCheck
    rw [hmiss]
    rfl
  · intro m p herr
    unfold requiredCheck at herr
    set missing := requiredFields.filter (fun c => !(nc.contains c)) with hmissdef
    by_cases he : missing.isEmpty
    · rw [if_pos he] at herr
      cases herr
    · rw [if_neg he] at herr
      have hm : missing = m ∧ nc = p := by
        refine ⟨?_, ?_⟩
        · injection herr with h1
          exact (congrArg Prod.fst h1)
        · injection herr with h1
          exact (congrArg Prod.snd h1)
      rcases hm with ⟨hm1, hm2⟩
      refine ⟨hm2.symm, ?_, ?_, ?_⟩
      · rw [← hm1]
        intro hRm
        have := List.mem_filter.mp hRm
        rw [hconts "Region" hYR.2] at this
        simpa using this.2
      · rw [← hm1]
        intro hnil
        rw [hnil] at he
        exact he rfl
      · intro c hcm
        rw [← hm1] at hcm
        have := List.mem_filter.mp hcm
        have hcreq : c ∈ requiredFields := this.1
        have hcnot : c ∉ nc := by
          intro hcin
          rw [hconts c hcin] at this
          simpa using this.2
        refine ⟨?_, hcnot⟩
        have hcreq3 : c = "Country" ∨ c = "Region" ∨ c = "HappinessScore" := by
          simpa [requiredFields] using hcreq
        rcases hcreq3 with h | h | h
        · exact Or.inl h
        · exact absurd (h ▸ hYR.2) hcnot
        · exact Or.inr h

/-- C9 counterexample: with headers ["country", "ladder score"] the Region
field is unresolved by alias resolution, yet the gate does NOT halt (Region
is defaulted); and when the gate does halt, the column list it reports is
the normalized one (with injected Year and Region), not the raw headers. -/
theorem C9_counterexample :
    pick ["country", "ladder score"] regionCands = none ∧
    requiredCheck (normalize_cols ["country", "ladder score"]) =
      .ok ["Country", "HappinessScore", "Year", "Region"] ∧
    requiredCheck (normalize_cols ["Foo"]) =
      .error (["Country", "HappinessScore"], ["Foo", "Year", "Region"]) ∧
    ["Foo", "Year", "Region"] ≠ ["Foo"] := by
  refine ⟨rfl, rfl, rfl, by decide⟩

/-- C9 witness: the amended theorem on a well-formed header list. -/
theorem C9_witness :
    requiredCheck (normalize_cols ["Country Name", "Regional indicator", "Ladder score"]) =
      .ok (normalize_cols ["Country Name", "Regional indicator", "Ladder score"]) := by
  exact (C9_required_gate ["Country Name", "Regional indicator", "Ladder score"]).2.1
    ⟨by decide, by decide⟩

/-! ### Row models for the merge pipeline (build_merged, src/app.py)

load_happiness, load_life and load_peace yield per-country records; the
merge keys on the Country column.  Payload values are carried so that rows
of one entity remain distinguishable. -/

/-- A happiness row: country plus its numeric payload. -/
structure HRow where
  country : String
  vals : List (Option Num)
deriving DecidableEq, Repr

/-- A life-expectancy row: country, year (nullable) and payload. -/
structure LifeRow where
  country : String
  year : Option Int
  vals : List (Option Num)
deriving DecidableEq, Repr

/-- A peace row: country and score. -/
structure PRow where
  country : String
  score : Option Num
deriving DecidableEq, Repr

/-! ### Order used by sort_values(["Country", "Year"])

pandas sorts NaN keys last (na_position default), so a null Year compares
greater than every dated year; the country key is compared as a Python
string (code points).  A multi-column sort_values is a stable lexsort. -/

/-- Year comparison with null greatest (NaN sorts last). -/
def yLt : Option Int → Option Int → Bool
  | none, _ => false
  | some _, none => true
  | some a, some b => decide (a < b)

/-- Strict lexicographic row comparison by (Country, Year). -/
def rowLt (a b : LifeRow) : Bool :=
  if strLtB a.country b.country then true
  else if a.country = b.country then yLt a.year b.year
  else false

lemma char_toNat_inj (a b : Char) (h : a.toNat = b.toNat) : a = b := by
  have ha := Char.ofNat_toNat a
  rw [← ha, h, Char.ofNat_toNat]

lemma charListLtB_irrefl : ∀ cs, charListLtB cs cs = false := by
  intro cs
  induction cs with
  | nil => rfl
  | cons c cs ih =>
    simp only [charListLtB, lt_irrefl c.toNat, if_false, if_pos rfl]
    exact ih

lemma charListLtB_trans : ∀ (as bs cs : List Char),
    charListLtB as bs = true → charListLtB bs cs = true → charListLtB as cs = true := by
  intro as
  induction as with
  | nil =>
    intro bs cs h1 h2
    match bs, cs with
    | [], _ => exact absurd h1 (by simp [charListLtB])
    | b :: bs, [] => exact absurd h2 (by simp [charListLtB])
    | b :: bs, c :: cs => rfl
  | cons a as ih =>
    intro bs cs h1 h2
    match bs, cs with
    | [], _ => exact absurd h1 (by simp [charListLtB])
    | b :: bs, [] => exact absurd h2 (by simp [charListLtB])
    | b :: bs, c :: cs =>
      by_cases hab : a.toNat < b.toNat
      · by_cases hbc : b.toNat < c.toNat
        · simp [charListLtB, lt_trans hab hbc]
        · by_cases hbce : b.toNat = c.toNat
          · have : a.toNat < c.toNat := by omega
            simp [charListLtB, this]
          · simp [charListLtB, hbc, hbce] at h2
      · by_cases habe : a.toNat = b.toNat
        · by_cases hbc : b.toNat < c.toNat
          · have : a.toNat < c.toNat := by omega
            simp [charListLtB, this]
          · by_cases hbce : b.toNat = c.toNat
            · have hace : a.toNat = c.toNat := by omega
              have hanc : ¬ a.toNat < c.toNat := by omega
              have h1' : charListLtB as bs = true := by
                simpa [charListLtB, hab, habe] using h1
              have h2' : charListLtB bs cs = true := by
                simpa [charListLtB, hbc, hbce] using h2
              simp only [charListLtB, if_neg hanc, if_pos hace]
              exact ih bs cs h1' h2'
            · simp [charListLtB, hbc, hbce] at h2
        · simp [charListLtB, hab, habe] at h1

lemma charListLtB_connex : ∀ (as bs : List Char),
    charListLtB as bs = false → charListLtB bs as = false → as = bs := by
  intro as
  induction as with
  | nil =>
    intro bs h1 _
    match bs with
    | [] => rfl
    | b :: bs => exact absurd h1 (by simp [charListLtB])
  | cons a as ih =>
    intro bs h1 h2
    match bs with
    | [] => exact absurd h2 (by simp [charListLtB])
    | b :: bs =>
      have hab : ¬ a.toNat < b.toNat := by
        intro hc
        simp [charListLtB, hc] at h1
      have hba : ¬ b.toNat < a.toNat := by
        intro hc
        simp [charListLtB, hc] at h2
      have habe : a.toNat = b.toNat := by omega
      have h1' : charListLtB as bs = false := by
        simpa [charListLtB, hab, habe] using h1
      have h2' : charListLtB bs as = false := by
        simpa [charListLtB, hba, habe.symm] using h2
      rw [char_toNat_inj a b habe, ih bs h1' h2']

lemma strLtB_irrefl (s : String) : strLtB s s = false := charListLtB_irrefl s.data

lemma strLtB_trans {a b c : String} (h1 : strLtB a b = true) (h2 : strLtB b c = true) :
    strLtB a c = true := charListLtB_trans a.data b.data c.data h1 h2

lemma strLtB_connex {a b : String} (h1 : strLtB a b = false) (h2 : strLtB b a = false) :
    a = b := by
  have hd : a.data = b.data := charListLtB_connex a.data b.data h1 h2
  cases a with
  | mk da =>
    cases b with
    | mk db => rw [show da = db from hd]

lemma strLtB_asymm {a b : String} (h : strLtB a b = true) : strLtB b a = false := by
  by_contra hc
  have h2 : strLtB b a = true := by
    cases hb : strLtB b a
    · exact absurd hb hc
    · rfl
  have := strLtB_trans h h2
  rw [strLtB_irrefl] at this
  cases this

lemma yLt_irrefl (y : Option Int) : yLt y y = false := by
  cases y with
  | none => rfl
  | some a => simp [yLt]

lemma yLt_trans {x y z : Option Int} (h1 : yLt x y = true) (h2 : yLt y z = true) :
    yLt x z = true := by
  match x, y, z with
  | none, _, _ => exact absurd h1 (by simp [yLt])
  | some a, none, _ => exact absurd h2 (by simp [yLt])
  | some a, some b, none => rfl
  | some a, some b, some c =>
    simp only [yLt, decide_eq_true_eq] at h1 h2 ⊢
    omega

lemma yLt_connex {x y : Option Int} (h1 : yLt x y = false) (h2 : yLt y x = false) :
    x = y := by
  match x, y with
  | none, none => rfl
  | none, some b => exact absurd h2 (by simp [yLt])
  | some a, none => exact absurd h1 (by simp [yLt])
  | some a, some b =>
    simp only [yLt, decide_eq_false_iff_not] at h1 h2
    have : a = b := by omega
    rw [this]

lemma yLt_ff_trans {x y z : Option Int} (h1 : yLt y x = false) (h2 : yLt z y = false) :
    yLt z x = false := by
  match x, y, z with
  | _, _, none => simp [yLt]
  | none, none, some c => exact absurd h2 (by simp [yLt])
  | none, some b, some c => exact absurd h1 (by simp [yLt])
  | some a, none, some c => exact absurd h2 (by simp [yLt])
  | some a, some b, some c =>
    simp only [yLt, decide_eq_false_iff_not] at h1 h2 ⊢
    omega

lemma yLt_asymm {x y : Option Int} (h : yLt x y = true) : yLt y x = false := by
  by_contra hc
  have h2 : yLt y x = true := by
    cases hb : yLt y x
    · exact absurd hb hc
    · rfl
  have := yLt_trans h h2
  rw [yLt_irrefl] at this
  cases this

lemma rowLt_same_country {a b : LifeRow} (h : a.country = b.country) :
    rowLt a b = yLt a.year b.year := by
  unfold rowLt
  rw [h, strLtB_irrefl]
  simp

lemma rowLt_ff_unfold {a b : LifeRow} (h : rowLt a b = false) :
    strLtB a.country b.country = false ∧ (a.country = b.country → yLt a.year b.year = false) := by
  unfold rowLt at h
  by_cases hs : strLtB a.country b.country = true
  · rw [if_pos (show strLtB a.country b.country = true from hs)] at h
    cases h
  · have hs' : strLtB a.country b.country = false := by
      cases hv : strLtB a.country b.country
      · rfl
      · exact absurd hv hs
    refine ⟨hs', ?_⟩
    intro he
    rw [if_neg (by rw [hs']; exact Bool.false_ne_true), if_pos he] at h
    exact h

lemma rowLt_ff_trans {a b c : LifeRow} (h1 : rowLt b a = false) (h2 : rowLt c b = false) :
    rowLt c a = false := by
  rcases rowLt_ff_unfold h1 with ⟨hs1, hy1⟩
  rcases rowLt_ff_unfold h2 with ⟨hs2, hy2⟩
  unfold rowLt
  have hsca : strLtB c.country a.country = false := by
    cases hv : strLtB c.country a.country
    · rfl
    · exfalso
      by_cases hba : strLtB a.country b.country = true
      · have := strLtB_trans hv hba
        rw [hs2] at this
        cases this
      · have hba' : strLtB a.country b.country = false := by
          cases hw : strLtB a.country b.country
          · rfl
          · exact absurd hw hba
        have heq : b.country = a.country := strLtB_connex hs1 hba'
        rw [← heq] at hv
        rw [hs2] at hv
        cases hv
  rw [if_neg (by rw [hsca]; exact Bool.false_ne_true)]
  by_cases hca : c.country = a.country
  · rw [if_pos hca]
    by_cases hab : a.country = b.country
    · have hcb : c.country = b.country := by rw [hca, hab]
      have hy2' := hy2 hcb
      have hy1' := hy1 (hab.symm)
      exact yLt_ff_trans hy1' hy2'
    · exfalso
      by_cases hsab : strLtB a.country b.country = true
      · have : strLtB c.country b.country = true := by rw [hca]; exact hsab
        rw [hs2] at this
        cases this
      · have hsab' : strLtB a.country b.country = false := by
          cases hw : strLtB a.country b.country
          · rfl
          · exact absurd hw hsab
        exact hab (strLtB_connex hsab' hs1)
  · rw [if_neg hca]

lemma rowLt_asymm {a b : LifeRow} (h : rowLt b a = true) : rowLt a b = false := by
  unfold rowLt at h ⊢
  by_cases hs : strLtB b.country a.country = true
  · have hab : strLtB a.country b.country = false := strLtB_asymm hs
    rw [if_neg (by rw [hab]; exact Bool.false_ne_true)]
    have hne : a.country ≠ b.country := by
      intro he
      rw [he, strLtB_irrefl] at hs
      cases hs
    rw [if_neg hne]
  · have hs' : strLtB b.country a.country = false := by
      cases hv : strLtB b.country a.country
      · rfl
      · exact absurd hv hs
    rw [if_neg (by rw [hs']; exact Bool.false_ne_true)] at h
    by_cases he : b.country = a.country
    · rw [if_pos he] at h
      rw [if_neg (by rw [he.symm, strLtB_irrefl]; exact Bool.false_ne_true), if_pos he.symm]
      exact yLt_asymm h
    · rw [if_neg he] at h
      cases h

/-! ### load_life: stable sort by (Country, Year) then last row per country

`df.sort_values(["Country", "Year"])` is a stable lexicographic sort
(multi-key sort_values uses lexsort); `groupby("Country").tail(1)` keeps,
for every country value, the last row in dataframe order.  The sort is
embedded as a stable insertion sort. -/

/-- Stable insertion of a row: the new row goes before the first existing
row that is not strictly below it, hence after every equal-key row. -/
def insertS (x : LifeRow) : List LifeRow → List LifeRow
  | [] => [x]
  | y :: ys => if rowLt y x then y :: insertS x ys else x :: y :: ys

/-- Stable insertion sort by (Country, Year). -/
def isort : List LifeRow → List LifeRow
  | [] => []
  | x :: xs => insertS x (isort xs)

/-- Keep the last occurrence of every country, in order:
`groupby("Country").tail(1)`. -/
def keepLast : List LifeRow → List LifeRow
  | [] => []
  | r :: rs => if rs.any (fun s => s.country == r.country) then keepLast rs
               else r :: keepLast rs

/-- load_life of src/app.py (after the renames): stable sort by
(Country, Year), then one row per country - the last of its group. -/
def load_life (rows : List LifeRow) : List LifeRow := keepLast (isort rows)

lemma keepLast_subset : ∀ (l : List LifeRow) (x : LifeRow), x ∈ keepLast l → x ∈ l := by
  intro l
  induction l with
  | nil => intro x hx; cases hx
  | cons r rs ih =>
    intro x hx
    by_cases h : rs.any (fun s => s.country == r.country) = true
    · simp only [keepLast, if_pos h] at hx
      exact List.mem_cons_of_mem _ (ih x hx)
    · simp only [keepLast, if_neg h] at hx
      rcases List.mem_cons.mp hx with rfl | hx
      · exact List.mem_cons_self _ _
      · exact List.mem_cons_of_mem _ (ih x hx)

lemma keepLast_nodup : ∀ l : List LifeRow, ((keepLast l).map LifeRow.country).Nodup := by
  intro l
  induction l with
  | nil => exact List.nodup_nil
  | cons r rs ih =>
    by_cases h : rs.any (fun s => s.country == r.country) = true
    · simpa only [keepLast, if_pos h] using ih
    · simp only [keepLast, if_neg h, List.map_cons]
      refine List.nodup_cons.mpr ⟨?_, ih⟩
      intro hc
      rcases List.mem_map.mp hc with ⟨x, hx, hxc⟩
      have hxin : x ∈ rs := keepLast_subset rs x hx
      have : rs.any (fun s => s.country == r.country) = true :=
        List.any_eq_true.mpr ⟨x, hxin, by simp [hxc]⟩
      exact h this

/-! ### The sequential left join of build_merged (C1)

`left.merge(right, on="Country", how="left")` keeps every left row; a left
row with no match gets nulls, a left row with k matching right rows is
repeated k times. -/

/-- Left join keyed by strings: one output row per (left row, match), or a
single null-extended row when there is no match. -/
def leftJoin {α β : Type} (ka : α → String) (kb : β → String)
    (xs : List α) (ys : List β) : List (α × Option β) :=
  xs.flatMap (fun x =>
    match ys.filter (fun y => kb y == ka x) with
    | [] => [(x, none)]
    | m :: ms => (m :: ms).map (fun m => (x, some m)))

/-- build_merged of src/app.py: happiness left-joined with the reduced life
table, then left-joined with the peace table, both on Country. -/
def build_mergedRows (h : List HRow) (l : List LifeRow) (p : List PRow) :
    List ((HRow × Option LifeRow) × Option PRow) :=
  leftJoin (fun r => r.1.country) (fun r => r.country)
    (leftJoin (fun r => r.country) (fun r => r.country) h l) p

lemma filter_key_length_le_one {β : Type} (kb : β → String) (k : String) :
    ∀ ys : List β, (ys.map kb).Nodup → (ys.filter (fun y => kb y == k)).length ≤ 1 := by
  intro ys
  induction ys with
  | nil => intro _; simp
  | cons y ys ih =>
    intro hnd
    have hnd2 : (kb y :: ys.map kb).Nodup := by simpa using hnd
    have hni : kb y ∉ ys.map kb := (List.nodup_cons.mp hnd2).1
    have hnd' : (ys.map kb).Nodup := (List.nodup_cons.mp hnd2).2
    by_cases h : (kb y == k) = true
    · simp only [List.filter_cons, if_pos h]
      have hnil : ys.filter (fun y => kb y == k) = [] := by
        rw [List.filter_eq_nil_iff]
        intro z hz hzk
        apply hni
        have h1 : kb y = k := by simpa using h
        have h2 : kb z = k := by simpa using hzk
        rw [h1, ← h2]
        exact List.mem_map_of_mem kb hz
      rw [hnil]
      simp
    · simp only [List.filter_cons, h]
      simp only [Bool.false_eq_true, if_false]
      exact ih hnd'

lemma leftJoin_length {α β : Type} (ka : α → String) (kb : β → String)
    (xs : List α) (ys : List β) (hnd : (ys.map kb).Nodup) :
    (leftJoin ka kb xs ys).length = xs.length := by
  induction xs with
  | nil => rfl
  | cons x xs ih =>
    simp only [leftJoin, List.flatMap_cons, List.length_append]
    have hone : (match ys.filter (fun y => kb y == ka x) with
        | [] => [(x, (none : Option β))]
        | m :: ms => (m :: ms).map (fun m => (x, some m))).length = 1 := by
      match hf : ys.filter (fun y => kb y == ka x) with
      | [] => rfl
      | m :: ms =>
        have hle := filter_key_length_le_one kb (ka x) ys hnd
        rw [hf] at hle
        simp only [List.length_map]
        simp only [List.length_cons] at hle ⊢
        omega
    rw [hone]
    have ih' : (leftJoin ka kb xs ys).length = xs.length := ih
    simp only [leftJoin] at ih'
    rw [ih']
    simp [Nat.add_comm]

/-- C1 amended: the merge of build_merged has exactly one row per primary
(happiness) row whenever each secondary table has at most one row per
Entity; the load_life secondary always satisfies this (its output countries
are pairwise distinct), but a secondary with duplicate Entity rows (which
load_peace never removes) multiplies the matching primary rows instead. -/
theorem C1_merge_row_count :
    (∀ (h : List HRow) (l : List LifeRow) (p : List PRow),
      (l.map LifeRow.country).Nodup → (p.map PRow.country).Nodup →
      (build_mergedRows h l p).length = h.length) ∧
    ∀ rows : List LifeRow, ((load_life rows).map LifeRow.country).Nodup := by
  constructor
  · intro h l p hl hp
    unfold build_mergedRows
    rw [leftJoin_length _ _ _ _ hp, leftJoin_length _ _ _ _ hl]
  · intro rows
    exact keepLast_nodup (isort rows)

/-- Concrete tables: one primary row, a peace table with duplicate rows for
the same entity. -/
def cexH : List HRow := [⟨"A", []⟩]

def cexPdup : List PRow := [⟨"A", none⟩, ⟨"A", some ⟨2, 0⟩⟩]

/-- C1 counterexample: with a secondary table holding two rows for entity
A, the merge of a one-row primary has two rows - the primary row is
multiplied, refuting the claim for duplicate-entity secondaries. -/
theorem C1_counterexample :
    (build_mergedRows cexH [] cexPdup).length = 2 ∧ cexH.length = 1 := by
  refine ⟨by decide, rfl⟩

/-- C1 witness: the amended theorem on concrete entity-unique secondaries. -/
theorem C1_witness :
    (build_mergedRows cexH [⟨"A", some 2020, []⟩] [⟨"B", none⟩]).length = 1 := by
  exact C1_merge_row_count.1 cexH [⟨"A", some 2020, []⟩] [⟨"B", none⟩]
    (by decide) (by decide)

/-! ### Which row per entity does load_life keep? (C2)

The sort is stable and puts null years last within each country, so the
kept row (the last of the country group) is the last occurrence of the
greatest year key, where a null year key is greater than every dated one. -/

/-- The later-wins best: comparing an earlier row r against the best a of
the remaining rows, r survives only when it is strictly above a; so the
result is the last occurrence of the maximum year key of entity e. -/
def bestRow (e : String) : List LifeRow → Option LifeRow
  | [] => none
  | r :: rs =>
    match bestRow e rs with
    | none => if r.country == e then some r else none
    | some a => if r.country == e && yLt a.year r.year then some r else some a

/-- Combine an earlier row x with the best of the later rows. -/
def merge2 (x : LifeRow) : Option LifeRow → Option LifeRow
  | none => some x
  | some a => if yLt a.year x.year then some x else some a

/-- Zero or one row, from an optional row. -/
def onlyRow : Option LifeRow → List LifeRow
  | none => []
  | some b => [b]

lemma mem_insertS : ∀ (l : List LifeRow) (x z : LifeRow), z ∈ insertS x l → z = x ∨ z ∈ l := by
  intro l
  induction l with
  | nil =>
    intro x z hz
    simp only [insertS] at hz
    rcases List.mem_cons.mp hz with rfl | h
    · exact Or.inl rfl
    · cases h
  | cons y ys ih =>
    intro x z hz
    by_cases h : rowLt y x = true
    · simp only [insertS, if_pos h] at hz
      rcases List.mem_cons.mp hz with rfl | hz
      · exact Or.inr (List.mem_cons_self _ _)
      · rcases ih x z hz with h1 | h1
        · exact Or.inl h1
        · exact Or.inr (List.mem_cons_of_mem _ h1)
    · simp only [insertS, if_neg h] at hz
      rcases List.mem_cons.mp hz with rfl | hz
      · exact Or.inl rfl
      · exact Or.inr hz

lemma self_mem_insertS : ∀ (l : List LifeRow) (x : LifeRow), x ∈ insertS x l := by
  intro l
  induction l with
  | nil => intro x; exact List.mem_cons_self _ _
  | cons y ys ih =>
    intro x
    by_cases h : rowLt y x = true
    · simp only [insertS, if_pos h]
      exact List.mem_cons_of_mem _ (ih x)
    · simp only [insertS, if_neg h]
      exact List.mem_cons_self _ _

lemma pairwise_insertS : ∀ (l : List LifeRow) (x : LifeRow),
    List.Pairwise (fun a b => rowLt b a = false) l →
    List.Pairwise (fun a b => rowLt b a = false) (insertS x l) := by
  intro l
  induction l with
  | nil => intro x _; simp [insertS]
  | cons y ys ih =>
    intro x hp
    rcases List.pairwise_cons.mp hp with ⟨hy, hys⟩
    by_cases h : rowLt y x = true
    · simp only [insertS, if_pos h]
      refine List.pairwise_cons.mpr ⟨?_, ih x hys⟩
      intro z hz
      rcases mem_insertS ys x z hz with rfl | hz
      · exact rowLt_asymm h
      · exact hy z hz
    · simp only [insertS, if_neg h]
      have hyx : rowLt y x = false := by
        cases hv : rowLt y x
        · rfl
        · exact absurd hv h
      refine List.pairwise_cons.mpr ⟨?_, hp⟩
      intro z hz
      rcases List.mem_cons.mp hz with rfl | hz
      · exact hyx
      · exact rowLt_ff_trans hyx (hy z hz)

lemma isort_pairwise : ∀ l : List LifeRow,
    List.Pairwise (fun a b => rowLt b a = false) (isort l) := by
  intro l
  induction l with
  | nil => exact List.Pairwise.nil
  | cons x xs ih => exact pairwise_insertS (isort xs) x ih

lemma insertS_split : ∀ (l : List LifeRow) (x : LifeRow),
    ∃ l₁ l₂, l = l₁ ++ l₂ ∧ insertS x l = l₁ ++ x :: l₂ := by
  intro l
  induction l with
  | nil => intro x; exact ⟨[], [], rfl, rfl⟩
  | cons y ys ih =>
    intro x
    by_cases h : rowLt y x = true
    · rcases ih x with ⟨l₁, l₂, he, hi⟩
      refine ⟨y :: l₁, l₂, by rw [he]; rfl, ?_⟩
      simp only [insertS, if_pos h, hi]
      rfl
    · exact ⟨[], y :: ys, rfl, by simp [insertS, if_neg h]⟩

lemma filter_insertS_ne (e : String) (l : List LifeRow) (x : LifeRow)
    (hx : (x.country == e) = false) :
    (insertS x l).filter (fun r => r.country == e) = l.filter (fun r => r.country == e) := by
  rcases insertS_split l x with ⟨l₁, l₂, he, hi⟩
  rw [hi, he, List.filter_append, List.filter_append, List.filter_cons, hx]
  simp

lemma getLast?_cons_of_ne_nil {α : Type} (y : α) (M : List α) (h : M ≠ []) :
    (y :: M).getLast? = M.getLast? := by
  match M with
  | [] => exact absurd rfl h
  | b :: bs => exact List.getLast?_cons_cons

lemma filter_ne_nil_of_mem {α : Type} (p : α → Bool) (l : List α) (x : α)
    (hx : x ∈ l) (hp : p x = true) : l.filter p ≠ [] :=
  List.ne_nil_of_mem (List.mem_filter.mpr ⟨hx, hp⟩)

lemma bfalse_of_not_true {b : Bool} (h : ¬ b = true) : b = false := by
  cases hv : b
  · rfl
  · exact absurd hv h

lemma filter_cons_pos (e : String) (r : LifeRow) (l : List LifeRow)
    (h : (r.country == e) = true) :
    (r :: l).filter (fun x => x.country == e) = r :: l.filter (fun x => x.country == e) := by
  rw [List.filter_cons, if_pos h]

lemma filter_cons_neg (e : String) (r : LifeRow) (l : List LifeRow)
    (h : (r.country == e) = false) :
    (r :: l).filter (fun x => x.country == e) = l.filter (fun x => x.country == e) := by
  rw [List.filter_cons, h]
  simp

lemma filter_insertS_getLast (e : String) :
    ∀ (l : List LifeRow) (x : LifeRow),
    List.Pairwise (fun a b => rowLt b a = false) l → (x.country == e) = true →
    ((insertS x l).filter (fun r => r.country == e)).getLast? =
      merge2 x ((l.filter (fun r => r.country == e)).getLast?) := by
  intro l
  induction l with
  | nil =>
    intro x _ hx
    simp [insertS, List.filter_cons, hx, merge2]
  | cons y ys ih =>
    intro x hp hx
    rcases List.pairwise_cons.mp hp with ⟨hy, hys⟩
    by_cases hlt : rowLt y x = true
    · have hins : insertS x (y :: ys) = y :: insertS x ys := by
        simp only [insertS, if_pos hlt]
      rw [hins]
      by_cases hye : (y.country == e) = true
      · rw [filter_cons_pos e y _ hye, filter_cons_pos e y _ hye]
        have hMne : (insertS x ys).filter (fun r => r.country == e) ≠ [] :=
          filter_ne_nil_of_mem _ _ x (self_mem_insertS ys x) hx
        rw [getLast?_cons_of_ne_nil _ _ hMne, ih x hys hx]
        by_cases hfy : ys.filter (fun r => r.country == e) = []
        · rw [hfy]
          have hyc : y.country = e := by simpa using hye
          have hxc : x.country = e := by simpa using hx
          have hcc : y.country = x.country := by rw [hyc, hxc]
          have hylt : yLt y.year x.year = true := by
            rw [← rowLt_same_country hcc]
            exact hlt
          simp [merge2, hylt]
        · rw [getLast?_cons_of_ne_nil _ _ hfy]
      · have hye' : (y.country == e) = false := bfalse_of_not_true hye
        rw [filter_cons_neg e y _ hye', filter_cons_neg e y _ hye', ih x hys hx]
    · have hltf : rowLt y x = false := bfalse_of_not_true hlt
      have hins : insertS x (y :: ys) = x :: y :: ys := by
        simp only [insertS, if_neg hlt]
      rw [hins, filter_cons_pos e x _ hx]
      by_cases hN : (y :: ys).filter (fun r => r.country == e) = []
      · rw [hN]
        simp [merge2]
      · rw [getLast?_cons_of_ne_nil _ _ hN]
        have hex : ∃ a, ((y :: ys).filter (fun r => r.country == e)).getLast? = some a := by
          cases hv : ((y :: ys).filter (fun r => r.country == e)).getLast? with
          | none => exact absurd ((getLast?_eq_none_iff _).mp hv) hN
          | some a => exact ⟨a, rfl⟩
        rcases hex with ⟨a, ha⟩
        rw [ha]
        have hamem := getLast?_mem_self _ a ha
        rcases List.mem_filter.mp hamem with ⟨hain, hae⟩
        have haf : rowLt a x = false := by
          rcases List.mem_cons.mp hain with rfl | hin
          · exact hltf
          · exact rowLt_ff_trans hltf (hy a hin)
        have hac : a.country = x.country := by
          have h1 : a.country = e := by simpa using hae
          have h2 : x.country = e := by simpa using hx
          rw [h1, h2]
        have hay : yLt a.year x.year = false := by
          rw [← rowLt_same_country hac]
          exact haf
        simp [merge2, hay]

lemma keepLast_filter (e : String) : ∀ l : List LifeRow,
    (keepLast l).filter (fun r => r.country == e) =
      onlyRow ((l.filter (fun r => r.country == e)).getLast?) := by
  intro l
  induction l with
  | nil => rfl
  | cons r rs ih =>
    by_cases hany : rs.any (fun s => s.country == r.country) = true
    · have hkeep : keepLast (r :: rs) = keepLast rs := by
        simp only [keepLast, if_pos hany]
      rw [hkeep, ih]
      by_cases hre : (r.country == e) = true
      · rw [filter_cons_pos e r _ hre]
        have hrc : r.country = e := by simpa using hre
        rcases List.any_eq_true.mp hany with ⟨s, hs, hsc⟩
        have hsce : (s.country == e) = true := by
          have : s.country = r.country := by simpa using hsc
          simp [this, hrc]
        have hne : rs.filter (fun x => x.country == e) ≠ [] :=
          filter_ne_nil_of_mem _ _ s hs hsce
        rw [getLast?_cons_of_ne_nil _ _ hne]
      · rw [filter_cons_neg e r _ (bfalse_of_not_true hre)]
    · have hkeep : keepLast (r :: rs) = r :: keepLast rs := by
        simp only [keepLast, if_neg hany]
      rw [hkeep]
      by_cases hre : (r.country == e) = true
      · have hnil : rs.filter (fun x => x.country == e) = [] := by
          rw [List.filter_eq_nil_iff]
          intro s hs hsce
          apply hany
          refine List.any_eq_true.mpr ⟨s, hs, ?_⟩
          have h1 : s.country = e := by simpa using hsce
          have h2 : r.country = e := by simpa using hre
          simp [h1, h2]
        rw [filter_cons_pos e r _ hre, filter_cons_pos e r _ hre, ih, hnil]
        rfl
      · have hre' : (r.country == e) = false := bfalse_of_not_true hre
        rw [filter_cons_neg e r _ hre', filter_cons_neg e r _ hre']
        exact ih

lemma isort_getLast_best (e : String) : ∀ rows : List LifeRow,
    ((isort rows).filter (fun r => r.country == e)).getLast? = bestRow e rows := by
  intro rows
  induction rows with
  | nil => rfl
  | cons x rs ih =>
    show ((insertS x (isort rs)).filter (fun r => r.country == e)).getLast? = _
    by_cases hx : (x.country == e) = true
    · rw [filter_insertS_getLast e (isort rs) x (isort_pairwise rs) hx, ih]
      cases hbr : bestRow e rs with
      | none => simp [merge2, bestRow, hbr, hx]
      | some a => simp [merge2, bestRow, hbr, hx]
    · have hx' : (x.country == e) = false := by
        cases hv : (x.country == e)
        · rfl
        · exact absurd hv hx
      rw [filter_insertS_ne e (isort rs) x hx', ih]
      cases hbr : bestRow e rs with
      | none => simp [bestRow, hbr, hx']
      | some a => simp [bestRow, hbr, hx']

lemma bestRow_none_mem (e : String) : ∀ rows : List LifeRow,
    bestRow e rows = none → ∀ r ∈ rows, r.country ≠ e := by
  intro rows
  induction rows with
  | nil => intro _ r hr; cases hr
  | cons x rs ih =>
    intro h r hr
    cases hbr : bestRow e rs with
    | none =>
      simp only [bestRow, hbr] at h
      by_cases hxe : (x.country == e) = true
      · rw [if_pos hxe] at h
        cases h
      · rcases List.mem_cons.mp hr with rfl | hin
        · intro hc
          exact hxe (by simp [hc])
        · exact ih hbr r hin
    | some a =>
      simp only [bestRow, hbr] at h
      by_cases hc : (x.country == e && yLt a.year x.year) = true
      · rw [if_pos hc] at h
        cases h
      · rw [if_neg hc] at h
        cases h

lemma bestRow_some_mem (e : String) : ∀ (rows : List LifeRow) (b : LifeRow),
    bestRow e rows = some b → b ∈ rows ∧ b.country = e := by
  intro rows
  induction rows with
  | nil => intro b h; cases h
  | cons x rs ih =>
    intro b h
    cases hbr : bestRow e rs with
    | none =>
      simp only [bestRow, hbr] at h
      by_cases hxe : (x.country == e) = true
      · rw [if_pos hxe] at h
        injection h with h
        rw [← h]
        exact ⟨List.mem_cons_self _ _, by simpa using hxe⟩
      · rw [if_neg hxe] at h
        cases h
    | some a =>
      simp only [bestRow, hbr] at h
      by_cases hc : (x.country == e && yLt a.year x.year) = true
      · rw [if_pos hc] at h
        injection h with h
        have hparts : (x.country == e) = true ∧ yLt a.year x.year = true := by
          simpa using hc
        rw [← h]
        exact ⟨List.mem_cons_self _ _, by simpa using hparts.1⟩
      · rw [if_neg hc] at h
        injection h with h
        rw [← h]
        rcases ih a hbr with ⟨hin, hc2⟩
        exact ⟨List.mem_cons_of_mem _ hin, hc2⟩

lemma bestRow_max (e : String) : ∀ (rows : List LifeRow) (b : LifeRow),
    bestRow e rows = some b → ∀ r ∈ rows, r.country = e → yLt b.year r.year = false := by
  intro rows
  induction rows with
  | nil => intro b h; cases h
  | cons x rs ih =>
    intro b h r hr hrc
    cases hbr : bestRow e rs with
    | none =>
      simp only [bestRow, hbr] at h
      by_cases hxe : (x.country == e) = true
      · rw [if_pos hxe] at h
        injection h with h
        rw [← h]
        rcases List.mem_cons.mp hr with heq | hin
        · rw [heq]
          exact yLt_irrefl _
        · exact absurd hrc (bestRow_none_mem e rs hbr r hin)
      · rw [if_neg hxe] at h
        cases h
    | some a =>
      simp only [bestRow, hbr] at h
      by_cases hc : (x.country == e && yLt a.year x.year) = true
      · rw [if_pos hc] at h
        injection h with h
        have hparts : (x.country == e) = true ∧ yLt a.year x.year = true := by
          simpa using hc
        rw [← h]
        rcases List.mem_cons.mp hr with heq | hin
        · rw [heq]
          exact yLt_irrefl _
        · have har : yLt a.year r.year = false := ih a hbr r hin hrc
          cases hv : yLt x.year r.year with
          | false => rfl
          | true =>
            exfalso
            have := yLt_trans hparts.2 hv
            rw [har] at this
            cases this
      · rw [if_neg hc] at h
        injection h with h
        rw [← h]
        rcases List.mem_cons.mp hr with heq | hin
        · have hxe : (x.country == e) = true := by rw [← heq]; simp [hrc]
          rw [heq]
          cases hv : yLt a.year x.year with
          | false => rfl
          | true => exact absurd (by simp [hxe, hv]) hc
        · exact ih a hbr r hin hrc

/-- C2 amended: load_life keeps exactly one row per distinct Entity - the
last occurrence of the row with the maximum year key, where a NULL Year
sorts AFTER every dated year (pandas na_position is last), so a null-Year
row SUPERSEDES every dated row of its entity instead of being superseded;
dated ties are broken by input order with the last kept. -/
theorem C2_temporal_reduction (rows : List LifeRow) (e : String) :
    ((load_life rows).filter (fun r => r.country == e) = onlyRow (bestRow e rows)) ∧
    ((load_life rows).map LifeRow.country).Nodup ∧
    (bestRow e rows = none ↔ ∀ r ∈ rows, r.country ≠ e) ∧
    ∀ b, bestRow e rows = some b →
      b ∈ rows ∧ b.country = e ∧ ∀ r ∈ rows, r.country = e → yLt b.year r.year = false := by
  refine ⟨?_, keepLast_nodup (isort rows), ⟨bestRow_none_mem e rows, ?_⟩, ?_⟩
  · show (keepLast (isort rows)).filter (fun r => r.country == e) = _
    rw [keepLast_filter e (isort rows), isort_getLast_best e rows]
  · intro hall
    cases hb : bestRow e rows with
    | none => rfl
    | some a =>
      rcases bestRow_some_mem e rows a hb with ⟨hin, hc⟩
      exact absurd hc (hall a hin)
  · intro b hb
    rcases bestRow_some_mem e rows b hb with ⟨hin, hc⟩
    exact ⟨hin, hc, bestRow_max e rows b hb⟩

/-- A dated row and a null-Year row of the same entity. -/
def exDated : LifeRow := ⟨"A", some 2020, []⟩

def exNullY : LifeRow := ⟨"A", none, []⟩

/-- C2 counterexample: with rows [year 2020, year null] for entity A, the
code keeps the NULL-Year row (NaN sorts last, tail(1) takes it), not the
dated row the claim requires. -/
theorem C2_counterexample :
    load_life [exDated, exNullY] = [exNullY] ∧
    load_life [exDated, exNullY] ≠ [exDated] := by
  refine ⟨by decide, by decide⟩

def exR19 : LifeRow := ⟨"A", some 2019, [some ⟨1, 0⟩]⟩

def exR21 : LifeRow := ⟨"A", some 2021, [some ⟨2, 0⟩]⟩

def exR20 : LifeRow := ⟨"A", some 2020, [some ⟨3, 0⟩]⟩

/-- C2 witness: entity A with years {2019, 2021, 2020} reduces to exactly
the 2021 row, which is maximal. -/
theorem C2_witness :
    ((load_life [exR19, exR21, exR20]).filter (fun r => r.country == "A") = [exR21]) ∧
    yLt exR21.year exR20.year = false := by
  constructor
  · have h := (C2_temporal_reduction [exR19, exR21, exR20] "A").1
    have hb : bestRow "A" [exR19, exR21, exR20] = some exR21 := by decide
    rw [hb] at h
    exact h
  · exact ((C2_temporal_reduction [exR19, exR21, exR20] "A").2.2.2 exR21
      (by decide)).2.2 exR20 (by decide) rfl

/-! ### Column sets of the merged table (C3)

`left.merge(right, on="Country", how="left")` produces the left columns
followed by the non-key right columns; a non-key label present on both
sides is suffixed _x / _y.  A column absent from a source is simply absent
from the merge - pandas does not pad it - and build_merged then filters
its canonical numeric-column list down to those present. -/

/-- The rename dictionary of load_happiness. -/
def happinessRename (c : String) : String :=
  if c = "Country name" then "Country"
  else if c = "Regional indicator" then "H_Region"
  else if c = "Ladder score" then "Happiness_Score"
  else if c = "Log GDP per capita" then "Log_GDP_per_capita"
  else if c = "Social support" then "Social_support"
  else if c = "Healthy life expectancy" then "Healthy_life_expectancy"
  else if c = "Freedom to make life choices" then "Freedom"
  else if c = "Perceptions of corruption" then "Corruption"
  else if c = "Dystopia + residual" then "Dystopia_residual"
  else c

/-- Columns produced by load_happiness: renamed columns plus the computed
Happiness_Rank; ranking reads the Happiness_Score column, so a table
without it fails (KeyError), modelled as none. -/
def loadHappinessCols (cols : List String) : Option (List String) :=
  let r := cols.map happinessRename
  if "Happiness_Score" ∈ r then
    some (if "Happiness_Rank" ∈ r then r else r ++ ["Happiness_Rank"])
  else none

/-- The first rename of load_life. -/
def lifeRename1 (c : String) : String := if c = "Country Name" then "Country" else c

/-- The post-reduction rename of load_life. -/
def lifeRename2 (c : String) : String :=
  if c = "Region" then "WB_Region"
  else if c = "IncomeGroup" then "Income_Group"
  else if c = "Life Expectancy World Bank" then "Life_Expectancy"
  else if c = "Health Expenditure %" then "Health_Expenditure_pct"
  else if c = "Education Expenditure %" then "Education_Expenditure_pct"
  else if c = "Prevelance of Undernourishment" then "Undernourishment_pct"
  else if c = "CO2" then "CO2_emissions"
  else if c = "Unemployment" then "Unemployment_pct"
  else c

/-- Columns produced by load_life: sort_values and groupby need Country
and Year (KeyError otherwise, modelled as none); the sort and reduction do
not change the column set. -/
def loadLifeCols (cols : List String) : Option (List String) :=
  let r := cols.map lifeRename1
  if "Country" ∈ r ∧ "Year" ∈ r then some (r.map lifeRename2) else none

/-- Columns of the load_peace output. -/
def peaceOutCols : List String := ["Country", "Peace_Score"]

/-- Column set of a pandas left merge on Country, with _x/_y suffixes on
overlapping non-key labels. -/
def mergeCols (L R : List String) : List String :=
  (L.map (fun c => if c ≠ "Country" ∧ c ∈ R then c ++ "_x" else c)) ++
  ((R.filter (fun c => c != "Country")).map (fun c => if c ∈ L then c ++ "_y" else c))

/-- Column set of build_merged: happiness merged with life, then peace. -/
def build_mergedCols (hraw lraw : List String) : Option (List String) :=
  match loadHappinessCols hraw, loadLifeCols lraw with
  | some hc, some lc => some (mergeCols (mergeCols hc lc) peaceOutCols)
  | _, _ => none

/-- The canonical numeric-column list of build_merged (before filtering). -/
def canonicalNumericCols : List String :=
  ["Happiness_Score", "Log_GDP_per_capita", "Social_support", "Healthy_life_expectancy",
   "Freedom", "Generosity", "Corruption", "Dystopia_residual", "Life_Expectancy",
   "Health_Expenditure_pct", "Education_Expenditure_pct", "Undernourishment_pct",
   "CO2_emissions", "Unemployment_pct", "Peace_Score"]

/-- numeric_cols after the presence filter of build_merged. -/
def numericColsOf (merged : List String) : List String :=
  canonicalNumericCols.filter (fun c => decide (c ∈ merged))

lemma mergeCols_no_overlap (L R : List String)
    (h : ∀ x ∈ L, x ∈ R → x = "Country") :
    mergeCols L R = L ++ R.filter (fun c => c != "Country") := by
  unfold mergeCols
  congr 1
  · have hall : ∀ c ∈ L, (if c ≠ "Country" ∧ c ∈ R then c ++ "_x" else c) = c := by
      intro c hc
      rw [if_neg]
      rintro ⟨hne, hcr⟩
      exact hne (h c hc hcr)
    rw [List.map_congr_left hall]
    simp
  · have hall : ∀ c ∈ R.filter (fun c => c != "Country"),
        (if c ∈ L then c ++ "_y" else c) = c := by
      intro c hc
      rcases List.mem_filter.mp hc with ⟨hcr, hcn⟩
      rw [if_neg]
      intro hcl
      have : c = "Country" := h c hcl hcr
      rw [this] at hcn
      simp at hcn
    rw [List.map_congr_left hall]
    simp

/-- C3 amended: a canonical metric column is present in the merged table
IF AND ONLY IF some source contributed it (after renaming); a metric no
source contributed is omitted from the merge - not padded with nulls - and
build_merged drops it from numeric_cols by filtering on presence.
(Hypotheses: the usual case of no overlapping non-key labels.) -/
theorem C3_column_presence (hraw lraw hc lc : List String)
    (hh : loadHappinessCols hraw = some hc) (hl : loadLifeCols lraw = some lc)
    (hov1 : ∀ x ∈ hc, x ∈ lc → x = "Country")
    (hov2 : ∀ x ∈ mergeCols hc lc, x ∈ peaceOutCols → x = "Country") :
    ∀ mc, build_mergedCols hraw lraw = some mc →
      ∀ c ∈ canonicalNumericCols,
        (c ∈ mc ↔ (c ∈ hc ∨ (c ∈ lc ∧ c ≠ "Country") ∨ c = "Peace_Score")) ∧
        (c ∈ numericColsOf mc ↔
          (c ∈ hc ∨ (c ∈ lc ∧ c ≠ "Country") ∨ c = "Peace_Score")) := by
  intro mc hmc c hcan
  have hmc2 : mc = mergeCols (mergeCols hc lc) peaceOutCols := by
    unfold build_mergedCols at hmc
    rw [hh, hl] at hmc
    injection hmc with hmc
    exact hmc.symm
  have hmain : c ∈ mc ↔ (c ∈ hc ∨ (c ∈ lc ∧ c ≠ "Country") ∨ c = "Peace_Score") := by
    rw [hmc2, mergeCols_no_overlap _ _ hov2, mergeCols_no_overlap _ _ hov1]
    have hpeace : peaceOutCols.filter (fun c => c != "Country") = ["Peace_Score"] := by decide
    rw [hpeace]
    simp only [List.mem_append, List.mem_filter, List.mem_singleton, bne_iff_ne, ne_eq]
    tauto
  refine ⟨hmain, ?_⟩
  rw [numericColsOf, List.mem_filter]
  simp only [decide_eq_true_eq]
  constructor
  · intro ⟨_, hmem⟩
    exact hmain.mp hmem
  · intro hsrc
    exact ⟨hcan, hmain.mpr hsrc⟩

/-- The 2024 happiness header list. -/
def exHRaw : List String :=
  ["Country name", "Regional indicator", "Ladder score", "Log GDP per capita",
   "Social support", "Healthy life expectancy", "Freedom to make life choices",
   "Generosity", "Perceptions of corruption", "Dystopia + residual"]

/-- A life-expectancy source that does not carry the CO2 field. -/
def exLRawNoCO2 : List String := ["Country Name", "Year", "Life Expectancy World Bank"]

/-- The full life-expectancy header list. -/
def exLRawFull : List String :=
  ["Country Name", "Year", "Region", "IncomeGroup", "Life Expectancy World Bank",
   "Health Expenditure %", "Education Expenditure %", "Prevelance of Undernourishment",
   "CO2", "Unemployment"]

/-- Columns of load_happiness on the 2024 headers. -/
def exHCols : List String :=
  ["Country", "H_Region", "Happiness_Score", "Log_GDP_per_capita", "Social_support",
   "Healthy_life_expectancy", "Freedom", "Generosity", "Corruption", "Dystopia_residual",
   "Happiness_Rank"]

/-- Columns of load_life on the full headers. -/
def exLCols : List String :=
  ["Country", "Year", "WB_Region", "Income_Group", "Life_Expectancy",
   "Health_Expenditure_pct", "Education_Expenditure_pct", "Undernourishment_pct",
   "CO2_emissions", "Unemployment_pct"]

/-- C3 counterexample: when the life source lacks the CO2 column, the
canonical metric CO2_emissions is MISSING from the merged column set and
from numeric_cols - it is omitted, not padded as an all-null column. -/
theorem C3_counterexample :
    "CO2_emissions" ∈ canonicalNumericCols ∧
    (build_mergedCols exHRaw exLRawNoCO2).isSome = true ∧
    "CO2_emissions" ∉ (build_mergedCols exHRaw exLRawNoCO2).getD [] ∧
    "CO2_emissions" ∉ numericColsOf ((build_mergedCols exHRaw exLRawNoCO2).getD []) := by
  refine ⟨by decide, by decide, by decide, by decide⟩

/-- C3 witness: the amended theorem on the full sources, instantiated at
the CO2_emissions column, which the life source does contribute. -/
theorem C3_witness :
    "CO2_emissions" ∈ (build_mergedCols exHRaw exLRawFull).getD [] := by
  have h := C3_column_presence exHRaw exLRawFull exHCols exLCols
    (by decide) (by decide) (by decide) (by decide)
  have hsome : build_mergedCols exHRaw exLRawFull =
      some ((build_mergedCols exHRaw exLRawFull).getD []) := by decide
  have h2 := h _ hsome "CO2_emissions" (by decide)
  exact h2.1.mpr (Or.inr (Or.inl ⟨by decide, by decide⟩))

end HappyDash
